import Mathlib

/-!
# Verification of the Pyrlang/Term ETF codec

This development formalises the behaviour of the Pyrlang/Term repository, a
bidirectional codec for the Erlang External Term Format (ETF).

Two layers are modelled:

* `TermAdapter`: a direct translation of the adapter module `src/term/codec.py`
  (the functions `binary_to_term` and `term_to_binary`), restricted to their
  observable effect on the Python `options` dict.  The Python value universe is
  shallowly embedded so that dict reads, writes and the `hasattr(x, "__call__")`
  test can be reproduced byte for byte from the source.

* `Etf`: the encode/decode engine.  The implementation file
  `term/py_codec_impl.py` is not part of the source tree (only the adapter and
  the test files are), so the engine is modelled from the specification,
  section 3 (value model), section 4.1 (decoder), section 4.2 (encoder) and
  section 6 (wire format).  Every definition in that namespace carries a doc
  comment naming the spec passage it follows.
-/

namespace TermAdapter

/-- Shallow embedding of the Python values the adapter in `src/term/codec.py`
manipulates: `None`, strings, callables (identified by an opaque index; the
body of a callable is outside the embedding) and dicts with insertion order. -/
inductive PyVal where
  | pynone : PyVal
  | pystr (s : String) : PyVal
  | pycallable (id : Nat) : PyVal
  | pydict (entries : List (String × PyVal)) : PyVal

/-- Python dict subscript read `d[k]`: the value bound to `k`, or `none` when
the key is absent (the site where Python raises `KeyError`). -/
def dictGet : List (String × PyVal) → String → Option PyVal
  | [], _ => none
  | (k, v) :: rest, key => if k = key then some v else dictGet rest key

/-- Python `d.get(k, default)`. -/
def dictGetD (d : List (String × PyVal)) (key : String) (dflt : PyVal) : PyVal :=
  (dictGet d key).getD dflt

/-- Python dict assignment `d[k] = v`: rebinds the key in place when present
(keeping insertion order), appends otherwise. -/
def dictSet : List (String × PyVal) → String → PyVal → List (String × PyVal)
  | [], key, v => [(key, v)]
  | (k, w) :: rest, key, v =>
    if k = key then (k, v) :: rest else (k, w) :: dictSet rest key v

/-- Python `hasattr(x, "__call__")` over the embedded value universe. -/
def isCallable : PyVal → Bool
  | .pycallable _ => true
  | _ => false

/-- Translation of `binary_to_term` (src/term/codec.py lines 36-38) restricted
to its effect on `options`.  The source reads

    if decode_hook is not None:
        options["decode_hook"] == decode_hook

which is an equality TEST, not an assignment: it subscript-reads
`options["decode_hook"]` (raising `KeyError` when the key is absent), compares,
and discards the boolean.  The options dict is then handed unchanged to
`co_impl.binary_to_term`.  The result is the options dict the implementation
receives, or the raised exception. -/
def binary_to_term_options (options : List (String × PyVal))
    (decode_hook : Option PyVal) : Except String (List (String × PyVal)) :=
  match decode_hook with
  | some _ =>
    match dictGet options "decode_hook" with
    | some _ => .ok options
    | none => .error "KeyError: decode_hook"
  | none => .ok options

/-- Translation of `term_to_binary` (src/term/codec.py lines 57-61) restricted
to its effect on `options`.  The source reads

    if hasattr(options.get("encode_hook", {}) , "__call__"):
        options["encode_hook"] = \x7b"catch_all": options.get("encode_hook")\x7d
    elif encode_hook is not None:
        options["encode_hook"] = encode_hook

Both assignments mutate the very dict object the caller passed (or the shared
default dict); the same object is then handed to `co_impl.term_to_binary`.
The result is therefore simultaneously the options dict the implementation
receives and the contents of the caller-visible dict after the call. -/
def term_to_binary_options (options : List (String × PyVal))
    (encode_hook : Option PyVal) : List (String × PyVal) :=
  if isCallable (dictGetD options "encode_hook" (.pydict [])) then
    dictSet options "encode_hook"
      (.pydict [("catch_all", dictGetD options "encode_hook" .pynone)])
  else
    match encode_hook with
    | some h => dictSet options "encode_hook" h
    | none => options

/-- Python evaluates the default expression `options={}` of `term_to_binary`
once, at function-definition time; every call that omits `options` shares (and
can mutate) that single dict object.  This models one call: given the current
contents of the shared default dict and the explicit arguments, it returns the
options dict handed to the codec implementation together with the contents of
the shared default dict after the call. -/
def term_to_binary_call (dflt : List (String × PyVal))
    (options : Option (List (String × PyVal))) (encode_hook : Option PyVal) :
    List (String × PyVal) × List (String × PyVal) :=
  match options with
  | some o => (term_to_binary_options o encode_hook, dflt)
  | none =>
    let o := term_to_binary_options dflt encode_hook
    (o, o)

theorem dictGet_dictSet_same (d : List (String × PyVal)) (k : String) (v : PyVal) :
    dictGet (dictSet d k v) k = some v := by
  induction d with
  | nil => simp [dictGet, dictSet]
  | cons hd tl ih =>
    obtain ⟨k0, v0⟩ := hd
    by_cases h : k0 = k
    · simp [dictGet, dictSet, h]
    · simp [dictGet, dictSet, h, ih]

/-- C2.  The claim says a non-None `decode_hook` argument is merged into the
options under the key "decode_hook".  The source line 37,
`options["decode_hook"] == decode_hook`, compares instead of assigning, so the
hook is never merged: with empty options the subscript read raises `KeyError`,
and with a pre-existing binding the options reach the implementation
unchanged, still holding the OLD value rather than the argument. -/
theorem C2_decode_hook_never_merged :
    binary_to_term_options [] (some (.pydict [("int", .pycallable 0)])) =
      .error "KeyError: decode_hook" ∧
    binary_to_term_options [("decode_hook", .pynone)] (some (.pycallable 1)) =
      .ok [("decode_hook", .pynone)] := by
  exact ⟨rfl, rfl⟩

/-- C3.  The claim says neither call modifies the caller-supplied options
mapping.  `term_to_binary` does modify it: a bare callable under "encode_hook"
is rebound in place to a one-entry dict, and a non-None `encode_hook` argument
is written into the caller-supplied dict. -/
theorem C3_term_to_binary_mutates_options :
    term_to_binary_options [("encode_hook", .pycallable 0)] none =
      [("encode_hook", .pydict [("catch_all", .pycallable 0)])] ∧
    term_to_binary_options [("encode_hook", .pycallable 0)] none
      ≠ [("encode_hook", .pycallable 0)] ∧
    term_to_binary_options [] (some (.pydict [("int", .pycallable 2)])) ≠ [] := by
  refine ⟨rfl, ?_, ?_⟩ <;>
    simp [term_to_binary_options, dictGetD, dictGet, dictSet, isCallable]

/-- C4.  When the caller-supplied options bind a bare callable under
"encode_hook", the implementation receives options whose "encode_hook" entry
is the promoted one-entry dict with key "catch_all"; when options carry no
callable "encode_hook" and the separate `encode_hook` parameter is not None,
the implementation receives options binding "encode_hook" to that parameter. -/
theorem C4_encode_hook_promotion :
    (∀ (options : List (String × PyVal)) (eh : Option PyVal) (f : Nat),
      dictGet options "encode_hook" = some (.pycallable f) →
      dictGet (term_to_binary_options options eh) "encode_hook" =
        some (.pydict [("catch_all", .pycallable f)])) ∧
    (∀ (options : List (String × PyVal)) (h : PyVal),
      isCallable (dictGetD options "encode_hook" (.pydict [])) = false →
      dictGet (term_to_binary_options options (some h)) "encode_hook" = some h) := by
  constructor
  · intro options eh f hget
    have hD : dictGetD options "encode_hook" (.pydict []) = .pycallable f := by
      simp [dictGetD, hget]
    have hD2 : dictGetD options "encode_hook" .pynone = .pycallable f := by
      simp [dictGetD, hget]
    simp [term_to_binary_options, hD, hD2, isCallable, dictGet_dictSet_same]
  · intro options h hnc
    simp [term_to_binary_options, hnc, dictGet_dictSet_same]

/-- Witness for C4 at concrete inputs: a bare callable inside options is
promoted, and an explicit hook parameter lands in the options. -/
theorem C4_encode_hook_promotion_witness :
    dictGet (term_to_binary_options [("encode_hook", .pycallable 0)] none) "encode_hook" =
      some (.pydict [("catch_all", .pycallable 0)]) ∧
    dictGet (term_to_binary_options [] (some (.pydict [("str", .pycallable 3)]))) "encode_hook" =
      some (.pydict [("str", .pycallable 3)]) := by
  constructor
  · exact C4_encode_hook_promotion.1 [("encode_hook", .pycallable 0)] none 0 rfl
  · exact C4_encode_hook_promotion.2 [] (.pydict [("str", .pycallable 3)]) rfl

/-- C10.  The `options={}` default of `term_to_binary` is one shared mutable
dict.  A call that omits options but supplies an `encode_hook` argument writes
the hook into that shared dict; a later call that omits both arguments then
hands the implementation options that still carry the earlier hook (promoted
to the catch-all dict when the earlier hook was a bare callable, since the
promotion branch fires on the leaked binding). -/
theorem C10_default_options_leak (h : PyVal) :
    dictGet (term_to_binary_call (term_to_binary_call [] none (some h)).2 none none).1
        "encode_hook" =
      some (if isCallable h then .pydict [("catch_all", h)] else h) := by
  cases h <;>
    simp [term_to_binary_call, term_to_binary_options, dictGetD, dictGet, dictSet, isCallable]

end TermAdapter

namespace Etf

/-- Modelled from the spec, section 4.1: all multi-byte integer fields in the
framing are big-endian; this is the 2-byte length field.  The codec engine
itself (term/py_codec_impl.py) is absent from src/, so this namespace models
it from the spec. -/
def u16 (n : Nat) : List Nat := [n / 256 % 256, n % 256]

/-- Modelled from the spec, section 4.1: big-endian 4-byte integer field. -/
def u32 (n : Nat) : List Nat :=
  [n / 16777216 % 256, n / 65536 % 256, n / 256 % 256, n % 256]

/-- Modelled from the spec, section 4.1: big-endian 8-byte field, used by
NEW_FLOAT for the IEEE-754 double bit pattern. -/
def u64 (n : Nat) : List Nat := u32 (n / 4294967296) ++ u32 n

/-- Modelled from the spec, section 7: read a counted block of bytes, failing
when the length field implies more bytes than available (truncated input). -/
def takeBytes (n : Nat) (bs : List Nat) : Except String (List Nat × List Nat) :=
  if n ≤ bs.length then .ok (bs.take n, bs.drop n) else .error "Codec: truncated input"

/-- Modelled from the spec, section 6: UTF-8 encoding of one Unicode
codepoint (atom text is UTF-8 on the modern tags; the encoder emits UTF-8). -/
def utf8Char (c : Nat) : List Nat :=
  if c < 128 then [c]
  else if c < 2048 then [192 + c / 64, 128 + c % 64]
  else if c < 65536 then [224 + c / 4096, 128 + c / 64 % 64, 128 + c % 64]
  else [240 + c / 262144, 128 + c / 4096 % 64, 128 + c / 64 % 64, 128 + c % 64]

/-- Modelled from the spec, section 6: UTF-8 encoding of a codepoint list. -/
def utf8 : List Nat → List Nat
  | [] => []
  | c :: cs => utf8Char c ++ utf8 cs

/-- Modelled from the spec, sections 4.1 and 7: read one UTF-8 codepoint off
the front of a byte block, returning it and the remaining bytes, or `none` on
invalid UTF-8. -/
def utf8Step (bs : List Nat) : Option (Nat × List Nat) :=
  match bs with
  | [] => none
  | b :: bs =>
    if b < 128 then some (b, bs)
    else if b < 192 then none
    else if b < 224 then
      match bs with
      | b1 :: bs1 =>
        if 128 ≤ b1 ∧ b1 < 192 then some ((b - 192) * 64 + (b1 - 128), bs1) else none
      | [] => none
    else if b < 240 then
      match bs with
      | b1 :: b2 :: bs2 =>
        if (128 ≤ b1 ∧ b1 < 192) ∧ (128 ≤ b2 ∧ b2 < 192) then
          some ((((b - 224) * 64 + (b1 - 128)) * 64 + (b2 - 128)), bs2)
        else none
      | _ => none
    else if b < 248 then
      match bs with
      | b1 :: b2 :: b3 :: bs3 =>
        if (128 ≤ b1 ∧ b1 < 192) ∧ (128 ≤ b2 ∧ b2 < 192) ∧ (128 ≤ b3 ∧ b3 < 192) then
          some (((((b - 240) * 64 + (b1 - 128)) * 64 + (b2 - 128)) * 64 + (b3 - 128)), bs3)
        else none
      | _ => none
    else none

/-- Modelled from the spec, sections 4.1 and 7: UTF-8 decoding of a byte
block, codepoint by codepoint.  Fuel-structured for kernel evaluation; one
fuel unit per codepoint, so the block length always suffices. -/
def utf8DecGo : Nat → List Nat → Option (List Nat)
  | _, [] => some []
  | 0, _ :: _ => none
  | f + 1, b :: bs =>
    match utf8Step (b :: bs) with
    | some (c, r) => (utf8DecGo f r).map (fun t => c :: t)
    | none => none

/-- Modelled from the spec, sections 4.1 and 7: UTF-8 decoding of a whole
byte block, `none` on invalid UTF-8 (the decoder raises on invalid UTF-8 in a
UTF-8-tagged atom). -/
def utf8Dec (bs : List Nat) : Option (List Nat) := utf8DecGo bs.length bs

/-- Modelled from the spec, section 9: minimal little-endian byte
decomposition of a natural number (to_bytes_le of the big-integer magnitude).
Fuel-structured so that the kernel can evaluate it; fuel `n` always suffices
because the value at least halves every step. -/
def natBytesLEGo : Nat → Nat → List Nat
  | 0, _ => []
  | _ + 1, 0 => []
  | f + 1, n + 1 => (n + 1) % 256 :: natBytesLEGo f ((n + 1) / 256)

/-- Modelled from the spec, section 9: to_bytes_le of a magnitude. -/
def natBytesLE (n : Nat) : List Nat := natBytesLEGo n n

/-- Modelled from the spec, section 4.1: from_bytes_le, the value of a
little-endian magnitude byte list. -/
def valLE : List Nat → Nat
  | [] => 0
  | b :: bs => b + 256 * valLE bs

/-- Modelled from the spec, section 3: the Value union.  Text (host strings
and atom names) is a list of Unicode codepoints; a Float carries the 64-bit
IEEE-754 bit pattern, since the codec only transports its 8 bytes; ByteString
and BitString carry byte lists.  A proper list and an improper list are
separate variants, matching the spec.  A Reference remembers whether it came
from the "newer" wire variant (section 4.2: NEW_REF unless the caller
constructed a newer variant).  A Fun keeps its parsed fields, the owning pid
as a sub-term; EXPORT_EXT funs are their own variant.  Booleans and the null
sentinel are distinct variants, as the codec always special-cases them.
Hook callables live outside the embedding. -/
inductive Term where
  | integer (i : Int)
  | float (bits : Nat)
  | atom (name : List Nat)
  | strictAtom (name : List Nat)
  | str (text : List Nat)
  | bytes (bs : List Nat)
  | bitstring (bs : List Nat) (tailBits : Nat)
  | tuple (elems : List Term)
  | list (elems : List Term)
  | improperList (elems : List Term) (tl : Term)
  | map (pairs : List (Term × Term))
  | pid (node : List Nat) (pidId : Nat) (serial : Nat) (creation : Nat)
  | ref (node : List Nat) (creation : Nat) (idBytes : List Nat) (newer : Bool)
  | newFun (arity : Nat) (uniq : List Nat) (index : Nat) (modName : List Nat)
      (oldIndex : Int) (oldUniq : Int) (funPid : Term) (freeVars : List Term)
  | exportFun (modName : List Nat) (funName : List Nat) (arity : Nat)
  | boolean (b : Bool)
  | undefined

/-- Modelled from the spec, section 4.1 options: representation of decoded
atoms, option key "atom" with values "Atom", "StrictAtom", "str", "bytes". -/
inductive AtomOpt where
  | asAtom | asStrictAtom | asStr | asBytes
deriving DecidableEq

/-- Modelled from the spec, section 4.1 options: representation of STRING_EXT
payloads, option key "byte_string" with values "str", "bytes", "int_list". -/
inductive ByteStringOpt where
  | asStr | asBytes | asIntList
deriving DecidableEq

/-- Modelled from the spec, section 4.3: the per-call decode configuration;
defaults are atoms as Atom values and byte-strings as text.  The callable
options (atom_call, decode_hook) are host functions outside the embedding. -/
structure Options where
  atomOpt : AtomOpt := .asAtom
  byteStringOpt : ByteStringOpt := .asStr

/-- The default options: no keys set. -/
def defaultOptions : Options := {}

/-- Modelled from the spec, section 4.2: canonical integer encoding.
SMALL_INT (97) for 0..255; INT (98, signed 32-bit two-s complement) for
-2^31..2^31-1; otherwise SMALL_BIG (110) when the magnitude fits in at most
255 bytes, else LARGE_BIG (111); big layout is length, sign byte (0 positive,
1 negative), little-endian magnitude. -/
def encInteger (i : Int) : List Nat :=
  if 0 ≤ i ∧ i ≤ 255 then [97, i.toNat]
  else if -2147483648 ≤ i ∧ i ≤ 2147483647 then 98 :: u32 (i % 4294967296).toNat
  else
    let mag := natBytesLE i.natAbs
    let sign := if i < 0 then 1 else 0
    if mag.length ≤ 255 then 110 :: mag.length :: sign :: mag
    else 111 :: u32 mag.length ++ sign :: mag

/-- Modelled from the spec, section 4.2: atom emission.  UTF-8 byte length at
most 255 gives SMALL_ATOM_UTF8_EXT (119), else ATOM_UTF8_EXT (118). -/
def encAtomName (name : List Nat) : List Nat :=
  let bs := utf8 name
  if bs.length ≤ 255 then 119 :: bs.length :: bs
  else 118 :: u16 bs.length ++ bs

/-- Modelled from the spec, section 4.2: a host string containing a codepoint
above 255 is encoded as a LIST_EXT of INT-tagged codepoints; this emits the
codepoint encodings. -/
def intCodepoints : List Nat → List Nat
  | [] => []
  | c :: cs => 98 :: u32 c ++ intCodepoints cs

mutual
/-- Modelled from the spec, section 4.2: the canonical encoder, emitting the
term encoding without the leading 131 version byte (term_to_binary prepends
it).  Tag choices follow section 4.2 exactly; lists and improper lists use
LIST_EXT (108) with an explicit tail and the empty proper list is NIL_EXT
(106); booleans and the null sentinel encode as the atoms true, false and
undefined. -/
def encodeTerm : Term → List Nat
  | .integer i => encInteger i
  | .float bits => 70 :: u64 bits
  | .atom name => encAtomName name
  | .strictAtom name => encAtomName name
  | .str text =>
    if (∀ c ∈ text, c ≤ 255) ∧ (utf8 text).length ≤ 65535 then
      107 :: u16 (utf8 text).length ++ utf8 text
    else
      108 :: u32 text.length ++ intCodepoints text ++ [106]
  | .bytes bs => 109 :: u32 bs.length ++ bs
  | .bitstring bs tb =>
    if tb = 8 then 109 :: u32 bs.length ++ bs
    else 77 :: u32 bs.length ++ tb :: bs
  | .tuple vs =>
    if vs.length ≤ 255 then 104 :: vs.length :: encList vs
    else 105 :: u32 vs.length ++ encList vs
  | .list vs =>
    match vs with
    | [] => [106]
    | _ :: _ => 108 :: u32 vs.length ++ encList vs ++ [106]
  | .improperList vs tl => 108 :: u32 vs.length ++ encList vs ++ encodeTerm tl
  | .map ps => 116 :: u32 ps.length ++ encPairs ps
  | .pid node i s c => 88 :: encAtomName node ++ u32 i ++ u32 s ++ u32 c
  | .ref node c idb newer =>
    if newer then 90 :: u16 (idb.length / 4) ++ encAtomName node ++ u32 c ++ idb
    else 114 :: u16 (idb.length / 4) ++ encAtomName node ++ c :: idb
  | .newFun ar uq ix m oi ou p free =>
    let body := ar :: uq ++ u32 ix ++ u32 free.length ++ encAtomName m ++
      encInteger oi ++ encInteger ou ++ encodeTerm p ++ encList free
    112 :: u32 (4 + body.length) ++ body
  | .exportFun m fn ar => 113 :: encAtomName m ++ encAtomName fn ++ [97, ar]
  | .boolean b =>
    if b then [119, 4, 116, 114, 117, 101] else [119, 5, 102, 97, 108, 115, 101]
  | .undefined => [119, 9, 117, 110, 100, 101, 102, 105, 110, 101, 100]

/-- Modelled from the spec, section 4.2: concatenated encodings of the
elements of a container. -/
def encList : List Term → List Nat
  | [] => []
  | v :: vs => encodeTerm v ++ encList vs

/-- Modelled from the spec, section 4.2: MAP_EXT payload, each key directly
followed by its value, in iteration order. -/
def encPairs : List (Term × Term) → List Nat
  | [] => []
  | (k, v) :: ps => encodeTerm k ++ encodeTerm v ++ encPairs ps
end

/-- Modelled from the spec, section 4.2: encode prepends the ETF version
prefix 131; the encoder never compresses. -/
def term_to_binary (t : Term) : List Nat := 131 :: encodeTerm t

/-- Modelled from the spec, sections 4.1 and 8: build the decoded value for
an atom with raw wire bytes `raw`; `isUtf8` selects UTF-8 text (tags 118 and
119) against latin-1 (legacy tags 100 and 115, where each byte is one
codepoint).  The atom texts true, false and undefined are ALWAYS coerced to
the host boolean true, boolean false and the null sentinel, regardless of the
atom option; otherwise the atom option picks the representation. -/
def mkAtom (o : Options) (isUtf8 : Bool) (raw : List Nat) : Except String Term :=
  if raw = [116, 114, 117, 101] then .ok (.boolean true)
  else if raw = [102, 97, 108, 115, 101] then .ok (.boolean false)
  else if raw = [117, 110, 100, 101, 102, 105, 110, 101, 100] then .ok .undefined
  else
    match o.atomOpt with
    | .asBytes => .ok (.bytes raw)
    | p =>
      match (if isUtf8 then utf8Dec raw else some raw) with
      | some text =>
        match p with
        | .asStrictAtom => .ok (.strictAtom text)
        | .asStr => .ok (.str text)
        | _ => .ok (.atom text)
      | none => .error "Codec: invalid utf8 atom"

/-- Modelled from the spec, section 4.1: the node or module atom field inside
Pid, Reference and Fun structures, parsed to the atom text; any of the four
atom tags is accepted, latin-1 for the legacy tags 100 and 115. -/
def decodeNodeAtom (bs : List Nat) : Except String (List Nat × List Nat) :=
  match bs with
  | 100 :: l1 :: l2 :: rest => takeBytes (l1 * 256 + l2) rest
  | 115 :: l :: rest => takeBytes l rest
  | 118 :: l1 :: l2 :: rest =>
    (match takeBytes (l1 * 256 + l2) rest with
     | .ok (raw, r) =>
       (match utf8Dec raw with
        | some text => .ok (text, r)
        | none => .error "Codec: invalid utf8 atom")
     | .error e => .error e)
  | 119 :: l :: rest =>
    (match takeBytes l rest with
     | .ok (raw, r) =>
       (match utf8Dec raw with
        | some text => .ok (text, r)
        | none => .error "Codec: invalid utf8 atom")
     | .error e => .error e)
  | _ => .error "Codec: bad node atom"

/-- Modelled from the spec, section 4.1: STRING_EXT under byte_string
"int_list" yields the list of byte values as integers. -/
def intTerms : List Nat → List Term
  | [] => []
  | b :: bs => .integer (b : Int) :: intTerms bs

/-- Modelled from the spec, section 4.1: regroup the flat key value key value
stream of MAP_EXT into insertion-ordered pairs. -/
def pairUp : List Term → List (Term × Term)
  | k :: v :: rest => (k, v) :: pairUp rest
  | _ => []

/-- Result type of a single-term decode step. -/
abbrev DecRes := Except String (Term × List Nat)

/-- Result type of a counted multi-term decode. -/
abbrev DecResN := Except String (List Term × List Nat)

/-- Modelled from the spec, section 4.1: LIST_EXT body, a counted run of
elements followed by a tail element; an empty-list tail makes a proper list,
any other tail an improper list.  The recursive decoders are passed in as
closures. -/
def decListExt (one : List Nat → DecRes) (many : Nat → List Nat → DecResN)
    (count : Nat) (rest : List Nat) : DecRes :=
  match many count rest with
  | .ok (elems, r) =>
    (match one r with
     | .ok (tl, r2) =>
       .ok ((match tl with
         | .list [] => .list elems
         | _ => .improperList elems tl), r2)
     | .error e => .error e)
  | .error e => .error e

/-- Modelled from the spec, section 4.1: tuple body, a counted run of
elements. -/
def decTupleExt (many : Nat → List Nat → DecResN) (count : Nat)
    (rest : List Nat) : DecRes :=
  match many count rest with
  | .ok (elems, r) => .ok (.tuple elems, r)
  | .error e => .error e

/-- Modelled from the spec, section 4.1: MAP_EXT body, count pairs read as a
flat run of 2 times count terms, preserving insertion order. -/
def decMapExt (many : Nat → List Nat → DecResN) (count : Nat)
    (rest : List Nat) : DecRes :=
  match many (2 * count) rest with
  | .ok (kvs, r) => .ok (.map (pairUp kvs), r)
  | .error e => .error e

/-- Modelled from the spec, section 4.1: atom body, a counted run of name
bytes handed to the atom construction with its tag family. -/
def decAtomExt (o : Options) (isUtf8 : Bool) (len : Nat) (rest : List Nat) : DecRes :=
  match takeBytes len rest with
  | .ok (raw, r) =>
    (match mkAtom o isUtf8 raw with
     | .ok v => .ok (v, r)
     | .error e => .error e)
  | .error e => .error e

/-- Modelled from the spec, section 4.1: STRING_EXT body, raw bytes
represented according to the byte_string option (default latin-1 text). -/
def decStringExt (o : Options) (len : Nat) (rest : List Nat) : DecRes :=
  match takeBytes len rest with
  | .ok (raw, r) =>
    .ok ((match o.byteStringOpt with
      | .asStr => .str raw
      | .asBytes => .bytes raw
      | .asIntList => .list (intTerms raw)), r)
  | .error e => .error e

/-- Modelled from the spec, section 4.1: SMALL_BIG and LARGE_BIG body, a sign
byte (0 positive, 1 negative) and a counted little-endian magnitude. -/
def decBigExt (len : Nat) (sign : Nat) (rest : List Nat) : DecRes :=
  match takeBytes len rest with
  | .ok (mag, r) =>
    .ok (.integer (if sign = 0 then (valLE mag : Int) else -(valLE mag : Int)), r)
  | .error e => .error e

/-- Modelled from the spec, section 4.1: BINARY_EXT body, counted bytes. -/
def decBinaryExt (len : Nat) (rest : List Nat) : DecRes :=
  match takeBytes len rest with
  | .ok (raw, r) => .ok (.bytes raw, r)
  | .error e => .error e

/-- Modelled from the spec, section 4.1: BIT_BINARY_EXT body, counted bytes
after the tail-bits byte. -/
def decBitBinaryExt (len : Nat) (tb : Nat) (rest : List Nat) : DecRes :=
  match takeBytes len rest with
  | .ok (raw, r) => .ok (.bitstring raw tb, r)
  | .error e => .error e

/-- Modelled from the spec, section 4.1: PID_EXT body, node atom, 4-byte id,
4-byte serial, 1-byte creation. -/
def decPidExt (rest : List Nat) : DecRes :=
  match decodeNodeAtom rest with
  | .ok (node, r) =>
    (match r with
     | i1 :: i2 :: i3 :: i4 :: s1 :: s2 :: s3 :: s4 :: cr :: r2 =>
       .ok (.pid node (((i1 * 256 + i2) * 256 + i3) * 256 + i4)
         (((s1 * 256 + s2) * 256 + s3) * 256 + s4) cr, r2)
     | _ => .error "Codec: truncated input")
  | .error e => .error e

/-- Modelled from the spec, section 4.1: NEW_PID_EXT body, node atom, 4-byte
id, 4-byte serial, 4-byte creation. -/
def decNewPidExt (rest : List Nat) : DecRes :=
  match decodeNodeAtom rest with
  | .ok (node, r) =>
    (match r with
     | i1 :: i2 :: i3 :: i4 :: s1 :: s2 :: s3 :: s4 :: c1 :: c2 :: c3 :: c4 :: r2 =>
       .ok (.pid node (((i1 * 256 + i2) * 256 + i3) * 256 + i4)
         (((s1 * 256 + s2) * 256 + s3) * 256 + s4)
         (((c1 * 256 + c2) * 256 + c3) * 256 + c4), r2)
     | _ => .error "Codec: truncated input")
  | .error e => .error e

/-- Modelled from the spec, section 4.1: NEW_REF_EXT body, a 2-byte count of
4-byte id words, node atom, 1-byte creation, id bytes. -/
def decNewRefExt (words : Nat) (rest : List Nat) : DecRes :=
  match decodeNodeAtom rest with
  | .ok (node, r) =>
    (match r with
     | cr :: r2 =>
       (match takeBytes (4 * words) r2 with
        | .ok (idb, r3) => .ok (.ref node cr idb false, r3)
        | .error e => .error e)
     | [] => .error "Codec: truncated input")
  | .error e => .error e

/-- Modelled from the spec, section 4.1: NEWER_REF_EXT body, like NEW_REF
but with a 4-byte creation. -/
def decNewerRefExt (words : Nat) (rest : List Nat) : DecRes :=
  match decodeNodeAtom rest with
  | .ok (node, r) =>
    (match r with
     | c1 :: c2 :: c3 :: c4 :: r2 =>
       (match takeBytes (4 * words) r2 with
        | .ok (idb, r3) =>
          .ok (.ref node (((c1 * 256 + c2) * 256 + c3) * 256 + c4) idb true, r3)
        | .error e => .error e)
     | _ => .error "Codec: truncated input")
  | .error e => .error e

/-- Modelled from the spec, section 4.1: NEW_FUN_EXT body after the 4-byte
total size (read but not validated) and the arity byte: 16-byte uniq, 4-byte
index, 4-byte free-variable count, module atom, old-index term, old-uniq
term, pid term, then the free variables. -/
def decNewFunExt (one : List Nat → DecRes) (many : Nat → List Nat → DecResN)
    (ar : Nat) (rest : List Nat) : DecRes :=
  match takeBytes 16 rest with
  | .ok (uq, r3) =>
    (match r3 with
     | x1 :: x2 :: x3 :: x4 :: g1 :: g2 :: g3 :: g4 :: r4 =>
       (match decodeNodeAtom r4 with
        | .ok (m, r5) =>
          (match one r5 with
           | .ok (.integer oi, r6) =>
             (match one r6 with
              | .ok (.integer ou, r7) =>
                (match one r7 with
                 | .ok (.pid pn pi psr pc, r8) =>
                   (match many (((g1 * 256 + g2) * 256 + g3) * 256 + g4) r8 with
                    | .ok (free, r9) =>
                      .ok (.newFun ar uq (((x1 * 256 + x2) * 256 + x3) * 256 + x4) m
                        oi ou (.pid pn pi psr pc) free, r9)
                    | .error e => .error e)
                 | .ok _ => .error "Codec: bad fun pid"
                 | .error e => .error e)
              | .ok _ => .error "Codec: bad fun old uniq"
              | .error e => .error e)
           | .ok _ => .error "Codec: bad fun old index"
           | .error e => .error e)
        | .error e => .error e)
     | _ => .error "Codec: truncated input")
  | .error e => .error e

/-- Modelled from the spec, section 4.1: EXPORT_EXT body, module atom,
function atom, arity as a small-int term. -/
def decExportExt (one : List Nat → DecRes) (rest : List Nat) : DecRes :=
  match decodeNodeAtom rest with
  | .ok (m, r) =>
    (match decodeNodeAtom r with
     | .ok (fn, r2) =>
       (match one r2 with
        | .ok (.integer ar, r3) =>
          if 0 ≤ ar ∧ ar ≤ 255 then .ok (.exportFun m fn ar.toNat, r3)
          else .error "Codec: bad export arity"
        | .ok _ => .error "Codec: bad export arity"
        | .error e => .error e)
     | .error e => .error e)
  | .error e => .error e

/-- Modelled from the spec, section 4.1: SMALL_INT body, one unsigned byte. -/
def decSmallIntExt (rest : List Nat) : DecRes :=
  match rest with
  | b :: r => .ok (.integer (b : Int), r)
  | _ => .error "Codec: truncated input"

/-- Modelled from the spec, section 4.1: INT body, four bytes, signed
two-s complement. -/
def decIntExt (rest : List Nat) : DecRes :=
  match rest with
  | a :: b :: c :: d :: r =>
    let nv := ((a * 256 + b) * 256 + c) * 256 + d
    .ok (.integer (if nv < 2147483648 then (nv : Int) else (nv : Int) - 4294967296), r)
  | _ => .error "Codec: truncated input"

/-- Modelled from the spec, section 4.1: NEW_FLOAT body, 8 bytes of
big-endian IEEE-754 double bit pattern. -/
def decFloatExt (rest : List Nat) : DecRes :=
  match rest with
  | b1 :: b2 :: b3 :: b4 :: b5 :: b6 :: b7 :: b8 :: r =>
    .ok (.float (((((((b1 * 256 + b2) * 256 + b3) * 256 + b4) * 256 + b5) * 256 + b6)
      * 256 + b7) * 256 + b8), r)
  | _ => .error "Codec: truncated input"

/-- Modelled from the spec, section 4.1: read a 1-byte header then run the
given body on it. -/
def withLen1 (body : Nat → List Nat → DecRes) (rest : List Nat) : DecRes :=
  match rest with
  | l :: r => body l r
  | _ => .error "Codec: truncated input"

/-- Modelled from the spec, section 4.1: read a 2-byte big-endian header then
run the given body on it. -/
def withLen2 (body : Nat → List Nat → DecRes) (rest : List Nat) : DecRes :=
  match rest with
  | l1 :: l2 :: r => body (l1 * 256 + l2) r
  | _ => .error "Codec: truncated input"

/-- Modelled from the spec, section 4.1: read a 4-byte big-endian header then
run the given body on it. -/
def withLen4 (body : Nat → List Nat → DecRes) (rest : List Nat) : DecRes :=
  match rest with
  | a :: b :: c :: d :: r => body (((a * 256 + b) * 256 + c) * 256 + d) r
  | _ => .error "Codec: truncated input"

/-- Modelled from the spec, section 4.1: SMALL_BIG body, 1-byte length then
sign and magnitude. -/
def decSmallBigExt (rest : List Nat) : DecRes :=
  match rest with
  | len :: sign :: r => decBigExt len sign r
  | _ => .error "Codec: truncated input"

/-- Modelled from the spec, section 4.1: LARGE_BIG body, 4-byte length then
sign and magnitude. -/
def decLargeBigExt (rest : List Nat) : DecRes :=
  match rest with
  | a :: b :: c :: d :: sign :: r => decBigExt (((a * 256 + b) * 256 + c) * 256 + d) sign r
  | _ => .error "Codec: truncated input"

/-- Modelled from the spec, section 4.1: BIT_BINARY body, 4-byte length and
tail-bits byte, then the bytes. -/
def decBitBinaryHeader (rest : List Nat) : DecRes :=
  match rest with
  | a :: b :: c :: d :: tb :: r => decBitBinaryExt (((a * 256 + b) * 256 + c) * 256 + d) tb r
  | _ => .error "Codec: truncated input"

/-- Modelled from the spec, section 4.1: NEW_FUN body, 4-byte total size
(read, not validated) and arity byte, then the fun fields. -/
def decNewFunHeader (one : List Nat → DecRes) (many : Nat → List Nat → DecResN)
    (rest : List Nat) : DecRes :=
  match rest with
  | _s1 :: _s2 :: _s3 :: _s4 :: ar :: r => decNewFunExt one many ar r
  | _ => .error "Codec: truncated input"

/-- Modelled from the spec, section 4.1: the per-tag dispatch of the
recursive-descent decoder.  The two recursive decoders (one term, a counted
run of terms) are passed in as closures; all multi-byte fields are
big-endian.  The tag table follows section 4.1: 97 SMALL_INT, 98 INT,
110 SMALL_BIG, 111 LARGE_BIG, 70 NEW_FLOAT, 100 ATOM, 115 SMALL_ATOM,
118 ATOM_UTF8, 119 SMALL_ATOM_UTF8, 107 STRING, 106 NIL, 108 LIST,
104 SMALL_TUPLE, 105 LARGE_TUPLE, 116 MAP, 109 BINARY, 77 BIT_BINARY,
103 PID, 88 NEW_PID, 114 NEW_REF, 90 NEWER_REF, 112 NEW_FUN, 113 EXPORT;
anything else is an unknown tag. -/
def decodeTag (one : List Nat → DecRes) (many : Nat → List Nat → DecResN)
    (o : Options) (t : Nat) (rest : List Nat) : DecRes :=
  match t with
  | 97 => decSmallIntExt rest
  | 98 => decIntExt rest
  | 110 => decSmallBigExt rest
  | 111 => decLargeBigExt rest
  | 70 => decFloatExt rest
  | 100 => withLen2 (decAtomExt o false) rest
  | 115 => withLen1 (decAtomExt o false) rest
  | 118 => withLen2 (decAtomExt o true) rest
  | 119 => withLen1 (decAtomExt o true) rest
  | 107 => withLen2 (decStringExt o) rest
  | 106 => .ok (.list [], rest)
  | 108 => withLen4 (decListExt one many) rest
  | 104 => withLen1 (decTupleExt many) rest
  | 105 => withLen4 (decTupleExt many) rest
  | 116 => withLen4 (decMapExt many) rest
  | 109 => withLen4 decBinaryExt rest
  | 77 => decBitBinaryHeader rest
  | 103 => decPidExt rest
  | 88 => decNewPidExt rest
  | 114 => withLen2 decNewRefExt rest
  | 90 => withLen2 decNewerRefExt rest
  | 112 => decNewFunHeader one many rest
  | 113 => decExportExt one rest
  | _ => .error "Codec: unknown tag"

mutual
/-- Modelled from the spec, section 4.1: decode one term, dispatching on the
leading tag byte; returns the value and the unconsumed tail.  The fuel
argument bounds the recursion depth and strictly decreases on every recursive
call, making the definition structural; binary_to_term supplies fuel
exceeding any depth reachable from its input, since one byte of input is
consumed per level before any recursive call. -/
def decodeOneF : Nat → Options → List Nat → DecRes
  | 0, _, _ => .error "Codec: recursion depth exceeded"
  | _ + 1, _, [] => .error "Codec: truncated input"
  | f + 1, o, t :: rest => decodeTag (decodeOneF f o) (decodeN f o) o t rest

/-- Modelled from the spec, section 4.1: decode a counted run of consecutive
terms (tuple and list elements, map keys and values, fun free variables),
threading the unconsumed tail. -/
def decodeN : Nat → Options → Nat → List Nat → DecResN
  | _, _, 0, bs => .ok ([], bs)
  | 0, _, _ + 1, _ => .error "Codec: recursion depth exceeded"
  | f + 1, o, n + 1, bs =>
    (match decodeOneF f o bs with
     | .ok (v, r) =>
       (match decodeN f o n r with
        | .ok (vs, t) => .ok (v :: vs, t)
        | .error e => .error e)
     | .error e => .error e)
end

/-- Modelled from the spec, section 4.1 public contract: decode one term and
return it with the unconsumed tail; fuel is derived from the input length. -/
def decodeTop (o : Options) (bs : List Nat) : Except String (Term × List Nat) :=
  decodeOneF (bs.length + 1) o bs

/-- Modelled from the spec, sections 4.1 and 6: the top-level decode.
Require the version byte 131; when the next byte is 80 (COMPRESSED), read a
4-byte big-endian uncompressed length, inflate the remaining bytes with the
zlib primitive (an external dependency, here an abstract parameter), verify
the inflated byte count against the header, then parse the inflated payload
WITHOUT re-checking the 131 prefix; otherwise parse the remaining bytes. -/
def binary_to_term_impl (inflate : List Nat → Option (List Nat)) (o : Options)
    (data : List Nat) : Except String (Term × List Nat) :=
  match data with
  | 131 :: 80 :: a :: b :: c :: d :: deflated =>
    (match inflate deflated with
     | some payload =>
       if payload.length = ((a * 256 + b) * 256 + c) * 256 + d then
         decodeTop o payload
       else .error "Codec: compressed data size mismatch"
     | none => .error "Codec: invalid compressed data")
  | 131 :: rest => decodeTop o rest
  | _ => .error "Codec: not an ETF term, missing 131 version byte"

/-- The zlib primitive is irrelevant outside the compressed envelope; this
stub stands in for it in theorems about uncompressed data. -/
def noInflate : List Nat → Option (List Nat) := fun _ => none

/-- Modelled from the spec, section 4.1: decode under the default options. -/
def binary_to_term (data : List Nat) : Except String (Term × List Nat) :=
  binary_to_term_impl noInflate defaultOptions data

/-- Recognizer for the compressed envelope: a 131 version byte followed by
the COMPRESSED tag 80. -/
def isCompressedEnvelope : List Nat → Bool
  | 131 :: 80 :: _ => true
  | _ => false

/-- A concrete zlib stand-in used to exercise the compressed branch: it
inflates exactly the one-byte stream [42] to the SMALL_INT encoding of 7
and rejects every other input, as a whole-stream decompressor does. -/
def inflate0 : List Nat → Option (List Nat) :=
  fun bs => if bs = [42] then some [97, 7] else none

/-- The empty proper list (an improper list may not have it as tail). -/
def isNilTerm : Term → Bool
  | .list [] => true
  | _ => false

/-- Pid discrimination, used by the Fun validity condition. -/
def isPidTerm : Term → Bool
  | .pid _ _ _ _ => true
  | _ => false

/-- An integer the encoder can frame: its magnitude decomposition fits the
4-byte length field of LARGE_BIG. -/
def intWf (i : Int) : Bool := (natBytesLE i.natAbs).length < 4294967296

/-- An atom name the encoder can frame, spec section 3: valid codepoints and
UTF-8 byte length at most 65535. -/
def atomNameWf (name : List Nat) : Bool :=
  name.all (fun c => c < 1114112) && (utf8 name).length ≤ 65535

/-- The three atom texts that the decoder always coerces. -/
def specialName (name : List Nat) : Bool :=
  name == [116, 114, 117, 101] || name == [102, 97, 108, 115, 101] ||
    name == [117, 110, 100, 101, 102, 105, 110, 101, 100]

mutual
/-- Modelled from the spec, sections 3 and 8: encodable values in canonical
form, the fixed points of decode after encode under default options.  Besides
the framing bounds (length fields fit their wire width, bytes are bytes,
codepoints are codepoints) this excludes exactly the values the decoder never
returns under default options: strict atoms, atoms named true, false or
undefined, host strings that are not pure ASCII, bit strings with a full last
byte, and improper lists whose tail is the empty list. -/
def canonTerm : Term → Bool
  | .integer i => intWf i
  | .float bits => bits < 18446744073709551616
  | .atom name => atomNameWf name && !specialName name
  | .strictAtom _ => false
  | .str text => text.all (fun c => c < 128) && text.length ≤ 65535
  | .bytes bs => bs.all (fun b => b < 256) && bs.length < 4294967296
  | .bitstring bs tb =>
    bs.all (fun b => b < 256) && bs.length < 4294967296 && 1 ≤ tb && tb ≤ 7
  | .tuple vs => vs.length < 4294967296 && canonList vs
  | .list vs => vs.length < 4294967296 && canonList vs
  | .improperList vs tl =>
    vs.length < 4294967296 && canonList vs && canonTerm tl && !isNilTerm tl
  | .map ps => ps.length < 4294967296 && canonPairs ps
  | .pid node i s c =>
    atomNameWf node && i < 4294967296 && s < 4294967296 && c < 4294967296
  | .ref node c idb newer =>
    atomNameWf node && idb.all (fun b => b < 256) && idb.length % 4 == 0 &&
      idb.length / 4 < 65536 && (if newer then c < 4294967296 else c < 256)
  | .newFun ar uq ix m oi ou p free =>
    ar < 256 && uq.length == 16 && uq.all (fun b => b < 256) && ix < 4294967296 &&
      atomNameWf m && intWf oi && intWf ou && isPidTerm p && canonTerm p &&
      free.length < 4294967296 && canonList free
  | .exportFun m fn ar => atomNameWf m && atomNameWf fn && ar < 256
  | .boolean _ => true
  | .undefined => true

/-- Canonicality of a run of container elements. -/
def canonList : List Term → Bool
  | [] => true
  | v :: vs => canonTerm v && canonList vs

/-- Canonicality of map pairs. -/
def canonPairs : List (Term × Term) → Bool
  | [] => true
  | (k, v) :: ps => canonTerm k && canonTerm v && canonPairs ps
end

mutual
/-- An upper bound for the decoder fuel a term needs: the recursion depth of
decodeOneF on its encoding, counted so that a run of elements at fuel f needs
listFuel below f. -/
def termFuel : Term → Nat
  | .tuple vs => 1 + listFuel vs
  | .list vs =>
    match vs with
    | [] => 1
    | _ :: _ => 1 + listFuel vs
  | .improperList vs tl => 2 + max (listFuel vs) (termFuel tl)
  | .map ps => 1 + pairFuel ps
  | .newFun _ _ _ _ _ _ p free => 3 + termFuel p + listFuel free
  | .exportFun _ _ _ => 3
  | _ => 1

/-- Fuel needed by decodeN for a run of elements. -/
def listFuel : List Term → Nat
  | [] => 0
  | v :: vs => 1 + max (termFuel v) (listFuel vs)

/-- Fuel needed by decodeN for the flattened key value stream of a map. -/
def pairFuel : List (Term × Term) → Nat
  | [] => 0
  | (k, v) :: ps => 1 + max (termFuel k) (1 + max (termFuel v) (pairFuel ps))
end

/-- The flat key value stream of a map, as the decoder reads it. -/
def flatPairs : List (Term × Term) → List Term
  | [] => []
  | (k, v) :: ps => k :: v :: flatPairs ps

/-! ### Framing lemmas -/

theorem takeBytes_exact (xs rest : List Nat) :
    takeBytes xs.length (xs ++ rest) = .ok (xs, rest) := by
  simp [takeBytes, List.take_left, List.drop_left]

theorem takeBytes_exact_of (n : Nat) (xs rest : List Nat) (h : xs.length = n) :
    takeBytes n (xs ++ rest) = .ok (xs, rest) := by
  subst h; exact takeBytes_exact xs rest

theorem u16_val (n : Nat) (h : n ≤ 65535) :
    n / 256 % 256 * 256 + n % 256 = n := by omega

theorem u32_val (n : Nat) (h : n < 4294967296) :
    ((n / 16777216 % 256 * 256 + n / 65536 % 256) * 256 + n / 256 % 256) * 256 + n % 256
      = n := by omega

theorem u32_cons (n : Nat) (rest : List Nat) :
    u32 n ++ rest =
      n / 16777216 % 256 :: n / 65536 % 256 :: n / 256 % 256 :: n % 256 :: rest := by
  simp [u32]

theorem u16_cons (n : Nat) (rest : List Nat) :
    u16 n ++ rest = n / 256 % 256 :: n % 256 :: rest := by
  simp [u16]

theorem u64_cons (n : Nat) (rest : List Nat) :
    u64 n ++ rest =
      n / 4294967296 / 16777216 % 256 :: n / 4294967296 / 65536 % 256 ::
      n / 4294967296 / 256 % 256 :: n / 4294967296 % 256 ::
      n / 16777216 % 256 :: n / 65536 % 256 :: n / 256 % 256 :: n % 256 :: rest := by
  simp [u64, u32]

theorem u64_val (n : Nat) (h : n < 18446744073709551616) :
    ((((((n / 4294967296 / 16777216 % 256 * 256 + n / 4294967296 / 65536 % 256) * 256 +
      n / 4294967296 / 256 % 256) * 256 + n / 4294967296 % 256) * 256 +
      n / 16777216 % 256) * 256 + n / 65536 % 256) * 256 + n / 256 % 256) * 256 + n % 256
      = n := by
  have h1 : n / 4294967296 < 4294967296 := by omega
  have h2 := u32_val (n / 4294967296) h1
  have h3 := u32_val (n % 4294967296) (by omega)
  omega

/-! ### Little-endian magnitude lemmas -/

theorem natBytesLEGo_val (f : Nat) : ∀ n, n ≤ f → valLE (natBytesLEGo f n) = n := by
  induction f with
  | zero => intro n h; interval_cases n; simp [natBytesLEGo, valLE]
  | succ f ih =>
    intro n h
    match n with
    | 0 => simp [natBytesLEGo, valLE]
    | m + 1 =>
      have hd : (m + 1) / 256 ≤ f := by omega
      simp only [natBytesLEGo, valLE, ih _ hd]
      omega

theorem valLE_natBytesLE (n : Nat) : valLE (natBytesLE n) = n :=
  natBytesLEGo_val n n le_rfl

/-! ### UTF-8 lemmas -/

theorem utf8Step_char (c : Nat) (hc : c < 1114112) (bs : List Nat) :
    utf8Step (utf8Char c ++ bs) = some (c, bs) := by
  by_cases h1 : c < 128
  · simp [utf8Char, h1, utf8Step]
  · by_cases h2 : c < 2048
    · have e1 : ¬ 192 + c / 64 < 128 := by omega
      have e2 : ¬ 192 + c / 64 < 192 := by omega
      have e3 : 192 + c / 64 < 224 := by omega
      have e4 : 128 ≤ 128 + c % 64 ∧ 128 + c % 64 < 192 := by omega
      have e5 : (192 + c / 64 - 192) * 64 + (128 + c % 64 - 128) = c := by omega
      simp only [utf8Char, h1, h2, if_true, if_false, ite_true, ite_false, if_neg, if_pos,
        List.cons_append, List.nil_append, utf8Step]
      rw [if_neg e1, if_neg e2, if_pos e3]
      simp only [if_pos e4, e5]
    · by_cases h3 : c < 65536
      · have e1 : ¬ 224 + c / 4096 < 128 := by omega
        have e2 : ¬ 224 + c / 4096 < 192 := by omega
        have e3 : ¬ 224 + c / 4096 < 224 := by omega
        have e4 : 224 + c / 4096 < 240 := by omega
        have e5 : (128 ≤ 128 + c / 64 % 64 ∧ 128 + c / 64 % 64 < 192) ∧
            128 ≤ 128 + c % 64 ∧ 128 + c % 64 < 192 := by omega
        have e6 : ((224 + c / 4096 - 224) * 64 + (128 + c / 64 % 64 - 128)) * 64 +
            (128 + c % 64 - 128) = c := by omega
        simp only [utf8Char, h1, h2, h3, ite_true, ite_false, List.cons_append,
          List.nil_append, utf8Step]
        rw [if_neg e1, if_neg e2, if_neg e3, if_pos e4]
        simp only [if_pos e5, e6]
      · have e1 : ¬ 240 + c / 262144 < 128 := by omega
        have e2 : ¬ 240 + c / 262144 < 192 := by omega
        have e3 : ¬ 240 + c / 262144 < 224 := by omega
        have e4 : ¬ 240 + c / 262144 < 240 := by omega
        have e5 : 240 + c / 262144 < 248 := by omega
        have e6 : (128 ≤ 128 + c / 4096 % 64 ∧ 128 + c / 4096 % 64 < 192) ∧
            (128 ≤ 128 + c / 64 % 64 ∧ 128 + c / 64 % 64 < 192) ∧
            128 ≤ 128 + c % 64 ∧ 128 + c % 64 < 192 := by omega
        have e7 : (((240 + c / 262144 - 240) * 64 + (128 + c / 4096 % 64 - 128)) * 64 +
            (128 + c / 64 % 64 - 128)) * 64 + (128 + c % 64 - 128) = c := by omega
        simp only [utf8Char, h1, h2, h3, ite_true, ite_false, List.cons_append,
          List.nil_append, utf8Step]
        rw [if_neg e1, if_neg e2, if_neg e3, if_neg e4, if_pos e5]
        simp only [if_pos e6, e7]

theorem utf8Char_ne_nil (c : Nat) : utf8Char c ≠ [] := by
  unfold utf8Char
  split_ifs <;> simp

theorem utf8DecGo_utf8 (cs : List Nat) : ∀ f, (∀ c ∈ cs, c < 1114112) →
    cs.length ≤ f → utf8DecGo f (utf8 cs) = some cs := by
  induction cs with
  | nil => intro f _ _; simp [utf8, utf8DecGo]
  | cons c cs ih =>
    intro f hv hf
    have hc : c < 1114112 := hv c (by simp)
    have hcs : ∀ x ∈ cs, x < 1114112 := fun x hx => hv x (by simp [hx])
    obtain ⟨g, rfl⟩ : ∃ g, f = g + 1 := ⟨f - 1, by simp at hf; omega⟩
    obtain ⟨b, bs, hb⟩ : ∃ b bs, utf8Char c = b :: bs := by
      cases hchar : utf8Char c with
      | nil => exact absurd hchar (utf8Char_ne_nil c)
      | cons b bs => exact ⟨b, bs, rfl⟩
    have hstep : utf8Step (utf8Char c ++ utf8 cs) = some (c, utf8 cs) :=
      utf8Step_char c hc (utf8 cs)
    rw [hb] at hstep
    have : utf8 (c :: cs) = b :: (bs ++ utf8 cs) := by simp [utf8, hb]
    rw [this]
    simp only [utf8DecGo, List.cons_append] at hstep ⊢
    rw [hstep]
    simp [ih g hcs (by simp at hf; omega)]

theorem utf8_length_ge (cs : List Nat) : cs.length ≤ (utf8 cs).length := by
  induction cs with
  | nil => simp [utf8]
  | cons c cs ih =>
    have h := utf8Char_ne_nil c
    have : 1 ≤ (utf8Char c).length := by
      cases hc : utf8Char c with
      | nil => exact absurd hc h
      | cons x xs => simp
    simp only [utf8, List.length_append, List.length_cons]
    omega

theorem utf8Dec_utf8 (cs : List Nat) (h : ∀ c ∈ cs, c < 1114112) :
    utf8Dec (utf8 cs) = some cs :=
  utf8DecGo_utf8 cs (utf8 cs).length h (utf8_length_ge cs)

theorem utf8_ascii (cs : List Nat) (h : ∀ c ∈ cs, c < 128) : utf8 cs = cs := by
  induction cs with
  | nil => rfl
  | cons c cs ih =>
    have hc : c < 128 := h c (by simp)
    have hcs : ∀ x ∈ cs, x < 128 := fun x hx => h x (by simp [hx])
    simp [utf8, utf8Char, hc, ih hcs]

theorem utf8_eq_of_valid (cs ds : List Nat) (h : ∀ c ∈ cs, c < 1114112)
    (heq : utf8 cs = utf8 ds) (hd : ∀ c ∈ ds, c < 1114112) : cs = ds := by
  have h1 := utf8Dec_utf8 cs h
  have h2 := utf8Dec_utf8 ds hd
  rw [heq, h2] at h1
  exact (Option.some.injEq _ _ ▸ h1).symm

theorem utf8_ne_of_ne (name target : List Nat) (hv : ∀ c ∈ name, c < 1114112)
    (htarget : utf8Dec target = some target) (hne : name ≠ target) :
    utf8 name ≠ target := by
  intro h
  apply hne
  have hd := utf8Dec_utf8 name hv
  rw [h, htarget] at hd
  exact (Option.some.injEq _ _ ▸ hd).symm

/-! ### Decoder step lemmas -/

set_option maxHeartbeats 4000000 in
theorem decodeOneF_cons (f : Nat) (o : Options) (t : Nat) (rest : List Nat) :
    decodeOneF (f + 1) o (t :: rest) =
      decodeTag (decodeOneF f o) (decodeN f o) o t rest := by
  simp [decodeOneF]

set_option maxHeartbeats 4000000 in
theorem decodeN_zero (f : Nat) (o : Options) (bs : List Nat) :
    decodeN f o 0 bs = .ok ([], bs) := by
  cases f <;> simp [decodeN]

set_option maxHeartbeats 4000000 in
theorem decodeN_succ (f n : Nat) (o : Options) (bs r t : List Nat) (v : Term)
    (vs : List Term) (h1 : decodeOneF f o bs = .ok (v, r))
    (h2 : decodeN f o n r = .ok (vs, t)) :
    decodeN (f + 1) o (n + 1) bs = .ok (v :: vs, t) := by
  simp [decodeN, h1, h2]

/-! ### Atom decoding lemmas -/

theorem specialName_utf8_ne (name : List Nat) (hv : ∀ c ∈ name, c < 1114112)
    (hs : specialName name = false) :
    utf8 name ≠ [116, 114, 117, 101] ∧ utf8 name ≠ [102, 97, 108, 115, 101] ∧
      utf8 name ≠ [117, 110, 100, 101, 102, 105, 110, 101, 100] := by
  refine ⟨utf8_ne_of_ne _ _ hv (by rfl) ?_, utf8_ne_of_ne _ _ hv (by rfl) ?_,
    utf8_ne_of_ne _ _ hv (by rfl) ?_⟩ <;>
    (intro h; subst h; simp [specialName] at hs)

theorem mkAtom_default_utf8 (name : List Nat) (hv : ∀ c ∈ name, c < 1114112)
    (hs : specialName name = false) :
    mkAtom defaultOptions true (utf8 name) = .ok (.atom name) := by
  obtain ⟨h1, h2, h3⟩ := specialName_utf8_ne name hv hs
  simp [mkAtom, h1, h2, h3, defaultOptions, utf8Dec_utf8 name hv]

theorem decAtomExt_default (name : List Nat) (rest : List Nat)
    (hv : ∀ c ∈ name, c < 1114112) (hs : specialName name = false) :
    decAtomExt defaultOptions true (utf8 name).length (utf8 name ++ rest) =
      .ok (.atom name, rest) := by
  simp [decAtomExt, takeBytes_exact, mkAtom_default_utf8 name hv hs]

theorem decodeNodeAtom_enc (name : List Nat) (rest : List Nat)
    (hv : ∀ c ∈ name, c < 1114112) (hlen : (utf8 name).length ≤ 65535) :
    decodeNodeAtom (encAtomName name ++ rest) = .ok (name, rest) := by
  unfold encAtomName
  by_cases h : (utf8 name).length ≤ 255
  · simp only [if_pos h, List.cons_append]
    simp [decodeNodeAtom, takeBytes_exact, utf8Dec_utf8 name hv]
  · simp only [if_neg h, u16_cons, List.cons_append]
    simp only [decodeNodeAtom]
    rw [u16_val _ hlen, takeBytes_exact]
    simp [utf8Dec_utf8 name hv]

/-! ### Container helper lemmas -/

theorem flatPairs_length (ps : List (Term × Term)) :
    (flatPairs ps).length = 2 * ps.length := by
  induction ps with
  | nil => simp [flatPairs]
  | cons p ps ih => obtain ⟨k, v⟩ := p; simp [flatPairs, ih]; omega

theorem encPairs_eq_encList_flat (ps : List (Term × Term)) :
    encPairs ps = encList (flatPairs ps) := by
  induction ps with
  | nil => simp [encPairs, flatPairs, encList]
  | cons p ps ih => obtain ⟨k, v⟩ := p; simp [encPairs, flatPairs, encList, ih]

theorem canonList_flat (ps : List (Term × Term)) (h : canonPairs ps = true) :
    canonList (flatPairs ps) = true := by
  induction ps with
  | nil => simp [flatPairs, canonList]
  | cons p ps ih =>
    obtain ⟨k, v⟩ := p
    simp [canonPairs] at h
    simp [flatPairs, canonList, h.1.1, h.1.2, ih h.2]

theorem listFuel_flat (ps : List (Term × Term)) :
    listFuel (flatPairs ps) = pairFuel ps := by
  induction ps with
  | nil => simp [flatPairs, listFuel, pairFuel]
  | cons p ps ih => obtain ⟨k, v⟩ := p; simp [flatPairs, listFuel, pairFuel, ih]

theorem pairUp_flat (ps : List (Term × Term)) : pairUp (flatPairs ps) = ps := by
  induction ps with
  | nil => simp [flatPairs, pairUp]
  | cons p ps ih => obtain ⟨k, v⟩ := p; simp [flatPairs, pairUp, ih]

theorem isNilTerm_match (tl : Term) (elems : List Term) (h : isNilTerm tl = false) :
    (match tl with
      | Term.list [] => Term.list elems
      | _ => Term.improperList elems tl) = Term.improperList elems tl := by
  cases tl with
  | list ws => cases ws with
    | nil => simp [isNilTerm] at h
    | cons w ws => rfl
  | _ => rfl

theorem isPidTerm_shape (p : Term) (h : isPidTerm p = true) :
    ∃ pn pi ps pc, p = .pid pn pi ps pc := by
  cases p <;> simp [isPidTerm] at h
  exact ⟨_, _, _, _, rfl⟩

theorem termFuel_pos (v : Term) : 1 ≤ termFuel v := by
  cases v with
  | list vs => cases vs <;> simp [termFuel]
  | _ => simp [termFuel] <;> omega

theorem atomNameWf_parts (name : List Nat) (h : atomNameWf name = true) :
    (∀ c ∈ name, c < 1114112) ∧ (utf8 name).length ≤ 65535 := by
  simp [atomNameWf] at h
  exact ⟨fun c hc => h.1 c hc, h.2⟩

/-- Decoding the canonical emission of a non-special atom name as a term
under default options gives the plain Atom value. -/
theorem decodeTag_atomName (f : Nat) (name : List Nat) (rest : List Nat)
    (hwf : atomNameWf name = true) (hs : specialName name = false) :
    decodeOneF (f + 1) defaultOptions (encAtomName name ++ rest) =
      .ok (.atom name, rest) := by
  obtain ⟨hv, hlen⟩ := atomNameWf_parts name hwf
  unfold encAtomName
  by_cases h : (utf8 name).length ≤ 255
  · simp only [if_pos h, List.cons_append, decodeOneF_cons]
    simp only [decodeTag, withLen1]
    exact decAtomExt_default name rest hv hs
  · simp only [if_neg h, u16_cons, List.cons_append, decodeOneF_cons]
    simp only [decodeTag, withLen2]
    rw [u16_val _ hlen]
    exact decAtomExt_default name rest hv hs

/-! ### Round trip: decoding an encoding -/

theorem decBigExt_exact (mag : List Nat) (sign : Nat) (rest : List Nat) :
    decBigExt mag.length sign (mag ++ rest) =
      .ok (.integer (if sign = 0 then (valLE mag : Int) else -(valLE mag : Int)), rest) := by
  simp [decBigExt, takeBytes_exact]

set_option maxHeartbeats 2000000 in
/-- Decoding an encoding, the central induction: under default options, the
decoder run on the canonical encoding of any canonical value (or run for a
counted run of canonical values) returns exactly that value and the trailing
bytes, for every sufficient fuel. -/
theorem decode_encode_mut (f : Nat) :
    (∀ v (rest : List Nat), canonTerm v = true → termFuel v ≤ f →
      decodeOneF f defaultOptions (encodeTerm v ++ rest) = .ok (v, rest)) ∧
    (∀ vs (rest : List Nat), canonList vs = true → listFuel vs ≤ f →
      decodeN f defaultOptions vs.length (encList vs ++ rest) = .ok (vs, rest)) := by
  induction f with
  | zero =>
    refine ⟨fun v rest hc hf => absurd hf (by have := termFuel_pos v; omega), ?_⟩
    intro vs rest hc hf
    cases vs with
    | nil => simpa [encList] using decodeN_zero 0 defaultOptions rest
    | cons v vs => exfalso; simp [listFuel] at hf
  | succ f ih =>
    obtain ⟨ih1, ihN⟩ := ih
    have stepN : ∀ vs (rest : List Nat), canonList vs = true → listFuel vs ≤ f + 1 →
        decodeN (f + 1) defaultOptions vs.length (encList vs ++ rest) = .ok (vs, rest) := by
      intro vs rest hc hf
      cases vs with
      | nil => simpa [encList] using decodeN_zero (f + 1) defaultOptions rest
      | cons v vs =>
        simp only [canonList, Bool.and_eq_true] at hc
        simp only [listFuel] at hf
        have e1 := ih1 v (encList vs ++ rest) hc.1 (by omega)
        have e2 := ihN vs rest hc.2 (by omega)
        rw [show encList (v :: vs) ++ rest = encodeTerm v ++ (encList vs ++ rest) by
          simp [encList]]
        exact decodeN_succ f vs.length _ _ _ _ v vs e1 e2
    refine ⟨?_, stepN⟩
    intro v rest hc hf
    cases v with
    | integer i =>
      simp only [canonTerm] at hc
      simp only [encodeTerm, encInteger]
      by_cases hsm : 0 ≤ i ∧ i ≤ 255
      · rw [if_pos hsm]
        simp only [List.cons_append, List.nil_append, decodeOneF_cons, decodeTag,
          decSmallIntExt]
        simp only [Except.ok.injEq, Prod.mk.injEq, Term.integer.injEq, and_true]
        omega
      · rw [if_neg hsm]
        by_cases hin : -2147483648 ≤ i ∧ i ≤ 2147483647
        · rw [if_pos hin]
          simp only [List.cons_append, u32_cons, decodeOneF_cons, decodeTag, decIntExt]
          rw [u32_val _ (by omega : (i % 4294967296).toNat < 4294967296)]
          simp only [Except.ok.injEq, Prod.mk.injEq, Term.integer.injEq, and_true]
          split_ifs with hsplit <;> omega
        · rw [if_neg hin]
          by_cases hneg : i < 0
          · simp only [if_pos hneg]
            by_cases hsb : (natBytesLE i.natAbs).length ≤ 255
            · rw [if_pos hsb]
              simp only [List.cons_append, decodeOneF_cons, decodeTag, decSmallBigExt]
              rw [decBigExt_exact (natBytesLE i.natAbs) 1 rest]
              rw [if_neg one_ne_zero]
              simp only [Except.ok.injEq, Prod.mk.injEq, Term.integer.injEq, and_true,
                valLE_natBytesLE]
              omega
            · rw [if_neg hsb]
              simp only [List.cons_append, u32_cons, decodeOneF_cons, decodeTag,
                decLargeBigExt]
              rw [u32_val _ (by simpa [intWf] using hc)]
              rw [decBigExt_exact (natBytesLE i.natAbs) 1 rest]
              rw [if_neg one_ne_zero]
              simp only [Except.ok.injEq, Prod.mk.injEq, Term.integer.injEq, and_true,
                valLE_natBytesLE]
              omega
          · simp only [if_neg hneg]
            by_cases hsb : (natBytesLE i.natAbs).length ≤ 255
            · rw [if_pos hsb]
              simp only [List.cons_append, decodeOneF_cons, decodeTag, decSmallBigExt]
              rw [decBigExt_exact (natBytesLE i.natAbs) 0 rest]
              rw [if_pos rfl]
              simp only [Except.ok.injEq, Prod.mk.injEq, Term.integer.injEq, and_true,
                valLE_natBytesLE]
              omega
            · rw [if_neg hsb]
              simp only [List.cons_append, u32_cons, decodeOneF_cons, decodeTag,
                decLargeBigExt]
              rw [u32_val _ (by simpa [intWf] using hc)]
              rw [decBigExt_exact (natBytesLE i.natAbs) 0 rest]
              rw [if_pos rfl]
              simp only [Except.ok.injEq, Prod.mk.injEq, Term.integer.injEq, and_true,
                valLE_natBytesLE]
              omega
    | float bits =>
      simp only [canonTerm] at hc
      simp only [encodeTerm]
      simp only [List.cons_append, u64_cons, decodeOneF_cons, decodeTag, decFloatExt]
      rw [u64_val _ (by simpa using hc)]
    | atom name =>
      simp only [canonTerm, Bool.and_eq_true, Bool.not_eq_true'] at hc
      simp only [encodeTerm]
      exact decodeTag_atomName f name rest hc.1 hc.2
    | strictAtom name => simp [canonTerm] at hc
    | str text =>
      simp only [canonTerm, Bool.and_eq_true, List.all_eq_true, decide_eq_true_eq] at hc
      obtain ⟨hascii, hlen⟩ := hc
      have hlen2 : text.length ≤ 65535 := by simpa using hlen
      have hutf : utf8 text = text := utf8_ascii text (fun c hcin => hascii c hcin)
      simp only [encodeTerm]
      rw [if_pos ⟨fun c hcin => by have := hascii c hcin; omega, by rw [hutf]; exact hlen2⟩]
      rw [hutf]
      simp only [List.cons_append, u16_cons, decodeOneF_cons, decodeTag, withLen2]
      rw [u16_val _ hlen2]
      simp [decStringExt, takeBytes_exact, defaultOptions]
    | bytes bs =>
      simp only [canonTerm, Bool.and_eq_true, decide_eq_true_eq] at hc
      simp only [encodeTerm]
      simp only [List.cons_append, u32_cons, decodeOneF_cons, decodeTag, withLen4]
      rw [u32_val _ hc.2]
      simp [decBinaryExt, takeBytes_exact]
    | bitstring bs tb =>
      simp only [canonTerm, Bool.and_eq_true, decide_eq_true_eq] at hc
      simp only [encodeTerm]
      rw [if_neg (by omega : ¬ tb = 8)]
      simp only [List.cons_append, u32_cons, decodeOneF_cons, decodeTag, decBitBinaryHeader]
      rw [u32_val _ (by omega : bs.length < 4294967296)]
      simp [decBitBinaryExt, takeBytes_exact]
    | tuple vs =>
      simp only [canonTerm, Bool.and_eq_true, decide_eq_true_eq] at hc
      simp only [termFuel] at hf
      have hN := ihN vs rest hc.2 (by omega)
      simp only [encodeTerm]
      by_cases hsm : vs.length ≤ 255
      · rw [if_pos hsm]
        simp only [List.cons_append, decodeOneF_cons, decodeTag, withLen1, decTupleExt, hN]
      · rw [if_neg hsm]
        simp only [List.cons_append, u32_cons, decodeOneF_cons, decodeTag, withLen4,
          decTupleExt]
        rw [u32_val _ hc.1]
        rw [hN]
    | list vs =>
      simp only [canonTerm, Bool.and_eq_true, decide_eq_true_eq] at hc
      cases vs with
      | nil =>
        simp only [encodeTerm, List.cons_append, List.nil_append, decodeOneF_cons, decodeTag]
      | cons v vs =>
        simp only [termFuel] at hf
        have hfl : 1 ≤ listFuel (v :: vs) := by simp [listFuel]
        obtain ⟨g, rfl⟩ : ∃ g, f = g + 1 := ⟨f - 1, by omega⟩
        have hN := ihN (v :: vs) (106 :: rest) hc.2 (by omega)
        simp only [encodeTerm]
        simp only [List.cons_append, List.append_assoc, List.singleton_append,
          List.nil_append, u32_cons, decodeOneF_cons, decodeTag, withLen4, decListExt]
        rw [u32_val _ hc.1]
        simp only [hN, decodeOneF_cons, decodeTag]
    | improperList vs tl =>
      simp only [canonTerm, Bool.and_eq_true, Bool.not_eq_true', decide_eq_true_eq] at hc
      obtain ⟨⟨⟨hlen, hcl⟩, hct⟩, hnil⟩ := hc
      simp only [termFuel] at hf
      have hN := ihN vs (encodeTerm tl ++ rest) hcl (by omega)
      have h1 := ih1 tl rest hct (by omega)
      simp only [encodeTerm]
      simp only [List.cons_append, List.append_assoc, u32_cons, decodeOneF_cons, decodeTag,
        withLen4, decListExt]
      rw [u32_val _ hlen]
      simp only [hN, h1]
      cases tl with
      | list ws =>
        cases ws with
        | nil => simp [isNilTerm] at hnil
        | cons w ws => rfl
      | _ => rfl
    | map ps =>
      simp only [canonTerm, Bool.and_eq_true, decide_eq_true_eq] at hc
      simp only [termFuel] at hf
      have hN := ihN (flatPairs ps) rest (canonList_flat ps hc.2)
        (by rw [listFuel_flat]; omega)
      rw [flatPairs_length] at hN
      simp only [encodeTerm, encPairs_eq_encList_flat]
      simp only [List.cons_append, u32_cons, decodeOneF_cons, decodeTag, withLen4, decMapExt]
      rw [u32_val _ hc.1]
      simp only [hN, pairUp_flat]
    | pid node i s c =>
      simp only [canonTerm, Bool.and_eq_true, decide_eq_true_eq] at hc
      obtain ⟨⟨⟨hwf, hi⟩, hs⟩, hcr⟩ := hc
      obtain ⟨hv, hlen⟩ := atomNameWf_parts node hwf
      simp only [encodeTerm]
      simp only [List.cons_append, List.append_assoc, decodeOneF_cons, decodeTag,
        decNewPidExt]
      rw [decodeNodeAtom_enc node _ hv hlen]
      simp only [u32_cons]
      rw [u32_val _ hi, u32_val _ hs, u32_val _ hcr]
    | ref node c idb newer =>
      simp only [canonTerm, Bool.and_eq_true, decide_eq_true_eq, beq_iff_eq] at hc
      obtain ⟨⟨⟨⟨hwf, hbytes⟩, hmod⟩, hwords⟩, hcr⟩ := hc
      obtain ⟨hv, hlen⟩ := atomNameWf_parts node hwf
      have hexact : 4 * (idb.length / 4) = idb.length := by omega
      cases newer with
      | false =>
        simp only [if_neg (Bool.false_ne_true)] at hcr
        simp only [encodeTerm, Bool.false_eq_true, if_neg, ite_false]
        simp only [List.cons_append, List.append_assoc, u16_cons, decodeOneF_cons,
          decodeTag, withLen2, decNewRefExt]
        rw [u16_val _ (by omega : idb.length / 4 ≤ 65535)]
        rw [decodeNodeAtom_enc node _ hv hlen]
        simp only [List.cons_append]
        rw [hexact, takeBytes_exact]
      | true =>
        simp only [ite_true, if_pos, decide_eq_true_eq] at hcr
        simp only [encodeTerm, if_pos, ite_true]
        simp only [List.cons_append, List.append_assoc, u16_cons, decodeOneF_cons,
          decodeTag, withLen2, decNewerRefExt]
        rw [u16_val _ (by omega : idb.length / 4 ≤ 65535)]
        rw [decodeNodeAtom_enc node _ hv hlen]
        simp only [u32_cons]
        rw [u32_val _ hcr, hexact, takeBytes_exact]
    | newFun ar uq ix m oi ou p free =>
      simp only [canonTerm, Bool.and_eq_true, decide_eq_true_eq, beq_iff_eq] at hc
      obtain ⟨⟨⟨⟨⟨⟨⟨⟨⟨⟨har, hulen⟩, hub⟩, hix⟩, hm⟩, hoi⟩, hou⟩, hpid⟩, hcp⟩, hfl⟩, hcf⟩ := hc
      obtain ⟨hmv, hmlen⟩ := atomNameWf_parts m hm
      simp only [termFuel] at hf
      obtain ⟨pn, pi, ps, pc, rfl⟩ := isPidTerm_shape p hpid
      have hOi : decodeOneF f defaultOptions
          (encInteger oi ++ (encInteger ou ++ (encodeTerm (.pid pn pi ps pc) ++
            (encList free ++ rest)))) = .ok (.integer oi, encInteger ou ++
            (encodeTerm (.pid pn pi ps pc) ++ (encList free ++ rest))) := by
        have h := ih1 (.integer oi) (encInteger ou ++ (encodeTerm (.pid pn pi ps pc) ++
          (encList free ++ rest))) (by simp [canonTerm, hoi]) (by simp [termFuel]; omega)
        simpa only [encodeTerm] using h
      have hOu : decodeOneF f defaultOptions
          (encInteger ou ++ (encodeTerm (.pid pn pi ps pc) ++ (encList free ++ rest))) =
          .ok (.integer ou, encodeTerm (.pid pn pi ps pc) ++ (encList free ++ rest)) := by
        have h := ih1 (.integer ou) (encodeTerm (.pid pn pi ps pc) ++ (encList free ++ rest))
          (by simp [canonTerm, hou]) (by simp [termFuel]; omega)
        simpa only [encodeTerm] using h
      have hP : decodeOneF f defaultOptions
          (encodeTerm (.pid pn pi ps pc) ++ (encList free ++ rest)) =
          .ok (.pid pn pi ps pc, encList free ++ rest) :=
        ih1 (.pid pn pi ps pc) (encList free ++ rest) hcp (by omega)
      have hF : decodeN f defaultOptions free.length (encList free ++ rest) =
          .ok (free, rest) := ihN free rest hcf (by omega)
      simp only [encodeTerm, u32_cons, List.cons_append, List.append_assoc] at hOi hOu hP hF
      simp only [encodeTerm]
      simp only [List.cons_append, List.append_assoc, u32_cons, decodeOneF_cons, decodeTag,
        decNewFunHeader, decNewFunExt]
      rw [takeBytes_exact_of 16 uq _ hulen]
      simp only [u32_cons, List.cons_append, List.append_assoc]
      rw [u32_val _ hix, u32_val _ hfl]
      simp only [decodeNodeAtom_enc m _ hmv hmlen, hOi, hOu, hP, hF]
    | exportFun m fn ar =>
      simp only [canonTerm, Bool.and_eq_true, decide_eq_true_eq] at hc
      obtain ⟨⟨hm, hfn⟩, har⟩ := hc
      obtain ⟨hmv, hmlen⟩ := atomNameWf_parts m hm
      obtain ⟨hfv, hflen⟩ := atomNameWf_parts fn hfn
      simp only [termFuel] at hf
      obtain ⟨g, rfl⟩ : ∃ g, f = g + 1 := ⟨f - 1, by omega⟩
      simp only [encodeTerm]
      simp only [List.cons_append, List.append_assoc, decodeOneF_cons, decodeTag,
        decExportExt]
      simp only [decodeNodeAtom_enc m _ hmv hmlen, decodeNodeAtom_enc fn _ hfv hflen]
      simp only [List.cons_append, List.nil_append, decodeOneF_cons, decodeTag,
        decSmallIntExt]
      rw [if_pos (by constructor <;> omega : (0 : Int) ≤ (ar : Int) ∧ (ar : Int) ≤ 255)]
      simp only [Except.ok.injEq, Prod.mk.injEq, Term.exportFun.injEq, and_true, true_and]
      omega
    | boolean b =>
      cases b <;>
        simp [encodeTerm, decodeOneF_cons, decodeTag, withLen1, decAtomExt, takeBytes,
          mkAtom]
    | undefined =>
      simp [encodeTerm, decodeOneF_cons, decodeTag, withLen1, decAtomExt, takeBytes, mkAtom]

/-! ### Fuel bounds and top-level wrappers -/

theorem encAtomName_length (name : List Nat) : 2 ≤ (encAtomName name).length := by
  simp only [encAtomName]
  split_ifs <;> simp [u16]

theorem encInteger_length (i : Int) : 2 ≤ (encInteger i).length := by
  simp only [encInteger]
  split_ifs <;> simp [u32]

theorem encodeTerm_length_pos (v : Term) : 1 ≤ (encodeTerm v).length := by
  cases v with
  | integer i => simp only [encodeTerm]; have := encInteger_length i; omega
  | list vs => cases vs <;> simp [encodeTerm]
  | str text => simp only [encodeTerm]; split_ifs <;> simp
  | bitstring bs tb => simp only [encodeTerm]; split_ifs <;> simp
  | tuple vs => simp only [encodeTerm]; split_ifs <;> simp
  | ref node c idb newer => simp only [encodeTerm]; split_ifs <;> simp
  | boolean b => cases b <;> simp [encodeTerm]
  | atom name => simp only [encodeTerm]; have := encAtomName_length name; omega
  | strictAtom name => simp only [encodeTerm]; have := encAtomName_length name; omega
  | _ => simp [encodeTerm]

mutual
theorem termFuel_le : ∀ v : Term, termFuel v ≤ (encodeTerm v).length
  | .integer i => by
    have := encInteger_length i
    simp only [termFuel, encodeTerm]; omega
  | .float bits => by simp [termFuel, encodeTerm, u64, u32]
  | .atom name => by
    have := encAtomName_length name
    simp only [termFuel, encodeTerm]; omega
  | .strictAtom name => by
    have := encAtomName_length name
    simp only [termFuel, encodeTerm]; omega
  | .str text => by
    simp only [termFuel, encodeTerm]
    split_ifs <;> simp [u16, u32]
  | .bytes bs => by simp [termFuel, encodeTerm, u32]
  | .bitstring bs tb => by
    simp only [termFuel, encodeTerm]
    split_ifs <;> simp [u32]
  | .tuple vs => by
    have hl := listFuel_le vs
    simp only [termFuel, encodeTerm]
    split_ifs <;> simp [u32] <;> omega
  | .list vs => by
    match vs with
    | [] => simp [termFuel, encodeTerm]
    | v :: vs =>
      have hl := listFuel_le (v :: vs)
      simp only [termFuel, encodeTerm]
      simp [u32]
      omega
  | .improperList vs tl => by
    have hl := listFuel_le vs
    have ht := termFuel_le tl
    have hp := encodeTerm_length_pos tl
    simp only [termFuel, encodeTerm]
    simp [u32]
    omega
  | .map ps => by
    have hl := pairFuel_le ps
    simp only [termFuel, encodeTerm]
    simp [u32]
    omega
  | .pid node i s c => by
    have := encAtomName_length node
    simp only [termFuel, encodeTerm]
    simp [u32]
  | .ref node c idb newer => by
    simp only [termFuel, encodeTerm]
    split_ifs <;> simp [u16, u32]
  | .newFun ar uq ix m oi ou p free => by
    have hp := termFuel_le p
    have hl := listFuel_le free
    have hpp := encodeTerm_length_pos p
    simp only [termFuel, encodeTerm]
    simp [u32]
    omega
  | .exportFun m fn ar => by
    have h1 := encAtomName_length m
    have h2 := encAtomName_length fn
    simp only [termFuel, encodeTerm]
    simp
    omega
  | .boolean b => by cases b <;> simp [termFuel, encodeTerm]
  | .undefined => by simp [termFuel, encodeTerm]

theorem listFuel_le : ∀ vs : List Term, listFuel vs ≤ 1 + (encList vs).length
  | [] => by simp [listFuel, encList]
  | v :: vs => by
    have h1 := termFuel_le v
    have h2 := listFuel_le vs
    have h3 := encodeTerm_length_pos v
    simp only [listFuel, encList, List.length_append]
    omega

theorem pairFuel_le : ∀ ps : List (Term × Term), pairFuel ps ≤ 1 + (encPairs ps).length
  | [] => by simp [pairFuel, encPairs]
  | (k, v) :: ps => by
    have h1 := termFuel_le k
    have h2 := termFuel_le v
    have h3 := pairFuel_le ps
    have h4 := encodeTerm_length_pos k
    have h5 := encodeTerm_length_pos v
    simp only [pairFuel, encPairs, List.length_append]
    omega
end

theorem encodeTerm_head_ne_80 (v : Term) :
    ∃ t r0, encodeTerm v = t :: r0 ∧ t ≠ 80 := by
  cases v with
  | integer i =>
    simp only [encodeTerm, encInteger]
    split_ifs <;> exact ⟨_, _, rfl, by decide⟩
  | atom name =>
    simp only [encodeTerm, encAtomName]
    split_ifs <;> exact ⟨_, _, rfl, by decide⟩
  | strictAtom name =>
    simp only [encodeTerm, encAtomName]
    split_ifs <;> exact ⟨_, _, rfl, by decide⟩
  | str text =>
    simp only [encodeTerm]
    split_ifs <;> exact ⟨_, _, rfl, by decide⟩
  | bitstring bs tb =>
    simp only [encodeTerm]
    split_ifs <;> exact ⟨_, _, rfl, by decide⟩
  | tuple vs =>
    simp only [encodeTerm]
    split_ifs <;> exact ⟨_, _, rfl, by decide⟩
  | list vs =>
    cases vs <;> simp only [encodeTerm] <;> exact ⟨_, _, rfl, by decide⟩
  | ref node c idb newer =>
    simp only [encodeTerm]
    split_ifs <;> exact ⟨_, _, rfl, by decide⟩
  | boolean b =>
    cases b <;> simp only [encodeTerm] <;> exact ⟨_, _, rfl, by decide⟩
  | _ =>
    simp only [encodeTerm] <;> exact ⟨_, _, rfl, by decide⟩

theorem binary_to_term_impl_uncompressed (inflate : List Nat → Option (List Nat))
    (o : Options) (t : Nat) (r0 : List Nat) (hne : t ≠ 80) :
    binary_to_term_impl inflate o (131 :: t :: r0) = decodeTop o (t :: r0) := by
  unfold binary_to_term_impl
  split
  · rename_i heq
    simp at heq
    exact absurd heq.1 hne
  · rename_i heq
    simp at heq
    rw [heq]
  · rename_i hne2 heq
    exact absurd rfl (heq (t :: r0))

theorem decodeTop_encode (v : Term) (rest : List Nat) (hc : canonTerm v = true) :
    decodeTop defaultOptions (encodeTerm v ++ rest) = .ok (v, rest) := by
  have h := (decode_encode_mut ((encodeTerm v ++ rest).length + 1)).1 v rest hc
    (by have h1 := termFuel_le v; simp only [List.length_append]; omega)
  simpa [decodeTop] using h

theorem binary_to_term_impl_encode (inflate : List Nat → Option (List Nat)) (v : Term)
    (hc : canonTerm v = true) :
    binary_to_term_impl inflate defaultOptions (term_to_binary v) = .ok (v, []) := by
  obtain ⟨t, r0, henc, hne⟩ := encodeTerm_head_ne_80 v
  unfold term_to_binary
  rw [henc, binary_to_term_impl_uncompressed inflate defaultOptions t r0 hne, ← henc]
  have := decodeTop_encode v [] hc
  simpa using this

/-! ### Decoder stability under suffixes -/

theorem takeBytes_stab (n : Nat) (bs xs t : List Nat)
    (h : takeBytes n bs = .ok (xs, t)) : bs = xs ++ t ∧ xs.length = n := by
  unfold takeBytes at h
  split at h
  · rename_i hle
    simp only [Except.ok.injEq, Prod.mk.injEq] at h
    obtain ⟨h1, h2⟩ := h
    subst h1; subst h2
    exact ⟨(List.take_append_drop n bs).symm, by simp [List.length_take]; omega⟩
  · exact absurd h (by simp)

theorem decSmallIntExt_stab (bs : List Nat) (v : Term) (t : List Nat)
    (h : decSmallIntExt bs = .ok (v, t)) :
    ∃ c, bs = c ++ t ∧ ∀ s, decSmallIntExt (c ++ s) = .ok (v, s) := by
  unfold decSmallIntExt at h
  split at h
  · rename_i b r
    simp only [Except.ok.injEq, Prod.mk.injEq] at h
    obtain ⟨h1, h2⟩ := h
    subst h1; subst h2
    exact ⟨[b], rfl, fun s => rfl⟩
  · exact absurd h (by simp)

theorem decIntExt_stab (bs : List Nat) (v : Term) (t : List Nat)
    (h : decIntExt bs = .ok (v, t)) :
    ∃ c, bs = c ++ t ∧ ∀ s, decIntExt (c ++ s) = .ok (v, s) := by
  unfold decIntExt at h
  split at h
  · rename_i a b c0 d r
    simp only [Except.ok.injEq, Prod.mk.injEq] at h
    obtain ⟨h1, h2⟩ := h
    subst h1; subst h2
    exact ⟨[a, b, c0, d], rfl, fun s => rfl⟩
  · exact absurd h (by simp)

theorem decFloatExt_stab (bs : List Nat) (v : Term) (t : List Nat)
    (h : decFloatExt bs = .ok (v, t)) :
    ∃ c, bs = c ++ t ∧ ∀ s, decFloatExt (c ++ s) = .ok (v, s) := by
  unfold decFloatExt at h
  split at h
  · rename_i b1 b2 b3 b4 b5 b6 b7 b8 r
    simp only [Except.ok.injEq, Prod.mk.injEq] at h
    obtain ⟨h1, h2⟩ := h
    subst h1; subst h2
    exact ⟨[b1, b2, b3, b4, b5, b6, b7, b8], rfl, fun s => rfl⟩
  · exact absurd h (by simp)

theorem decBigExt_stab (len sign : Nat) (bs : List Nat) (v : Term) (t : List Nat)
    (h : decBigExt len sign bs = .ok (v, t)) :
    ∃ c, bs = c ++ t ∧ ∀ s, decBigExt len sign (c ++ s) = .ok (v, s) := by
  unfold decBigExt at h
  split at h
  · rename_i mag r htake
    obtain ⟨hb, hlen⟩ := takeBytes_stab _ _ _ _ htake
    simp only [Except.ok.injEq, Prod.mk.injEq] at h
    obtain ⟨h1, h2⟩ := h
    subst h1; subst h2
    refine ⟨mag, hb, fun s => ?_⟩
    unfold decBigExt
    rw [takeBytes_exact_of len mag s hlen]
  · exact absurd h (by simp)

theorem decBinaryExt_stab (len : Nat) (bs : List Nat) (v : Term) (t : List Nat)
    (h : decBinaryExt len bs = .ok (v, t)) :
    ∃ c, bs = c ++ t ∧ ∀ s, decBinaryExt len (c ++ s) = .ok (v, s) := by
  unfold decBinaryExt at h
  split at h
  · rename_i raw r htake
    obtain ⟨hb, hlen⟩ := takeBytes_stab _ _ _ _ htake
    simp only [Except.ok.injEq, Prod.mk.injEq] at h
    obtain ⟨h1, h2⟩ := h
    subst h1; subst h2
    refine ⟨raw, hb, fun s => ?_⟩
    unfold decBinaryExt
    rw [takeBytes_exact_of len raw s hlen]
  · exact absurd h (by simp)

theorem decBitBinaryExt_stab (len tb : Nat) (bs : List Nat) (v : Term) (t : List Nat)
    (h : decBitBinaryExt len tb bs = .ok (v, t)) :
    ∃ c, bs = c ++ t ∧ ∀ s, decBitBinaryExt len tb (c ++ s) = .ok (v, s) := by
  unfold decBitBinaryExt at h
  split at h
  · rename_i raw r htake
    obtain ⟨hb, hlen⟩ := takeBytes_stab _ _ _ _ htake
    simp only [Except.ok.injEq, Prod.mk.injEq] at h
    obtain ⟨h1, h2⟩ := h
    subst h1; subst h2
    refine ⟨raw, hb, fun s => ?_⟩
    unfold decBitBinaryExt
    rw [takeBytes_exact_of len raw s hlen]
  · exact absurd h (by simp)

theorem decAtomExt_stab (o : Options) (u : Bool) (len : Nat) (bs : List Nat) (v : Term)
    (t : List Nat) (h : decAtomExt o u len bs = .ok (v, t)) :
    ∃ c, bs = c ++ t ∧ ∀ s, decAtomExt o u len (c ++ s) = .ok (v, s) := by
  unfold decAtomExt at h
  split at h
  · rename_i raw r htake
    obtain ⟨hb, hlen⟩ := takeBytes_stab _ _ _ _ htake
    split at h
    · rename_i v0 hmk
      simp only [Except.ok.injEq, Prod.mk.injEq] at h
      obtain ⟨h1, h2⟩ := h
      subst h1; subst h2
      refine ⟨raw, hb, fun s => ?_⟩
      unfold decAtomExt
      simp only [takeBytes_exact_of len raw s hlen, hmk]
    · exact absurd h (by simp)
  · exact absurd h (by simp)

theorem decStringExt_stab (o : Options) (len : Nat) (bs : List Nat) (v : Term)
    (t : List Nat) (h : decStringExt o len bs = .ok (v, t)) :
    ∃ c, bs = c ++ t ∧ ∀ s, decStringExt o len (c ++ s) = .ok (v, s) := by
  unfold decStringExt at h
  split at h
  · rename_i raw r htake
    obtain ⟨hb, hlen⟩ := takeBytes_stab _ _ _ _ htake
    simp only [Except.ok.injEq, Prod.mk.injEq] at h
    obtain ⟨h1, h2⟩ := h
    subst h1; subst h2
    refine ⟨raw, hb, fun s => ?_⟩
    unfold decStringExt
    rw [takeBytes_exact_of len raw s hlen]
  · exact absurd h (by simp)

theorem decodeNodeAtom_stab (bs : List Nat) (name : List Nat) (t : List Nat)
    (h : decodeNodeAtom bs = .ok (name, t)) :
    ∃ c, bs = c ++ t ∧ ∀ s, decodeNodeAtom (c ++ s) = .ok (name, s) := by
  unfold decodeNodeAtom at h
  split at h
  · rename_i l1 l2 rest
    obtain ⟨hb, hlen⟩ := takeBytes_stab _ _ _ _ h
    refine ⟨100 :: l1 :: l2 :: name, by simp [hb], fun s => ?_⟩
    simp only [List.cons_append, decodeNodeAtom]
    exact takeBytes_exact_of _ name s hlen
  · rename_i l rest
    obtain ⟨hb, hlen⟩ := takeBytes_stab _ _ _ _ h
    refine ⟨115 :: l :: name, by simp [hb], fun s => ?_⟩
    simp only [List.cons_append, decodeNodeAtom]
    exact takeBytes_exact_of _ name s hlen
  · rename_i l1 l2 rest
    split at h
    · rename_i raw r htake
      obtain ⟨hb, hlen⟩ := takeBytes_stab _ _ _ _ htake
      split at h
      · rename_i text hdec
        simp only [Except.ok.injEq, Prod.mk.injEq] at h
        obtain ⟨h1, h2⟩ := h
        subst h1; subst h2
        refine ⟨118 :: l1 :: l2 :: raw, by simp [hb], fun s => ?_⟩
        simp only [List.cons_append, decodeNodeAtom]
        simp only [takeBytes_exact_of _ raw s hlen, hdec]
      · exact absurd h (by simp)
    · exact absurd h (by simp)
  · rename_i l rest
    split at h
    · rename_i raw r htake
      obtain ⟨hb, hlen⟩ := takeBytes_stab _ _ _ _ htake
      split at h
      · rename_i text hdec
        simp only [Except.ok.injEq, Prod.mk.injEq] at h
        obtain ⟨h1, h2⟩ := h
        subst h1; subst h2
        refine ⟨119 :: l :: raw, by simp [hb], fun s => ?_⟩
        simp only [List.cons_append, decodeNodeAtom]
        simp only [takeBytes_exact_of _ raw s hlen, hdec]
      · exact absurd h (by simp)
    · exact absurd h (by simp)
  · exact absurd h (by simp)

theorem decPidExt_stab (bs : List Nat) (v : Term) (t : List Nat)
    (h : decPidExt bs = .ok (v, t)) :
    ∃ c, bs = c ++ t ∧ ∀ s, decPidExt (c ++ s) = .ok (v, s) := by
  unfold decPidExt at h
  split at h
  · rename_i node r hnode
    obtain ⟨c1, hb, hrep⟩ := decodeNodeAtom_stab _ _ _ hnode
    split at h
    · rename_i i1 i2 i3 i4 s1 s2 s3 s4 cr r2
      simp only [Except.ok.injEq, Prod.mk.injEq] at h
      obtain ⟨h1, h2⟩ := h
      subst h1; subst h2
      refine ⟨c1 ++ [i1, i2, i3, i4, s1, s2, s3, s4, cr], by simp [hb], fun s => ?_⟩
      unfold decPidExt
      rw [List.append_assoc]
      simp only [List.cons_append, List.nil_append, hrep]
    · exact absurd h (by simp)
  · exact absurd h (by simp)

theorem decNewPidExt_stab (bs : List Nat) (v : Term) (t : List Nat)
    (h : decNewPidExt bs = .ok (v, t)) :
    ∃ c, bs = c ++ t ∧ ∀ s, decNewPidExt (c ++ s) = .ok (v, s) := by
  unfold decNewPidExt at h
  split at h
  · rename_i node r hnode
    obtain ⟨c1, hb, hrep⟩ := decodeNodeAtom_stab _ _ _ hnode
    split at h
    · rename_i i1 i2 i3 i4 s1 s2 s3 s4 c1' c2' c3' c4' r2
      simp only [Except.ok.injEq, Prod.mk.injEq] at h
      obtain ⟨h1, h2⟩ := h
      subst h1; subst h2
      refine ⟨c1 ++ [i1, i2, i3, i4, s1, s2, s3, s4, c1', c2', c3', c4'],
        by simp [hb], fun s => ?_⟩
      unfold decNewPidExt
      rw [List.append_assoc]
      simp only [List.cons_append, List.nil_append, hrep]
    · exact absurd h (by simp)
  · exact absurd h (by simp)

theorem decNewRefExt_stab (words : Nat) (bs : List Nat) (v : Term) (t : List Nat)
    (h : decNewRefExt words bs = .ok (v, t)) :
    ∃ c, bs = c ++ t ∧ ∀ s, decNewRefExt words (c ++ s) = .ok (v, s) := by
  unfold decNewRefExt at h
  split at h
  · rename_i node r hnode
    obtain ⟨c1, hb, hrep⟩ := decodeNodeAtom_stab _ _ _ hnode
    split at h
    · rename_i cr r2
      split at h
      · rename_i idb r3 htake
        obtain ⟨hb2, hlen⟩ := takeBytes_stab _ _ _ _ htake
        simp only [Except.ok.injEq, Prod.mk.injEq] at h
        obtain ⟨h1, h2⟩ := h
        subst h1; subst h2
        refine ⟨c1 ++ cr :: idb, by simp [hb, hb2], fun s => ?_⟩
        unfold decNewRefExt
        rw [List.append_assoc]
        simp only [List.cons_append, hrep]
        simp only [takeBytes_exact_of _ idb s hlen]
      · exact absurd h (by simp)
    · exact absurd h (by simp)
  · exact absurd h (by simp)

theorem decNewerRefExt_stab (words : Nat) (bs : List Nat) (v : Term) (t : List Nat)
    (h : decNewerRefExt words bs = .ok (v, t)) :
    ∃ c, bs = c ++ t ∧ ∀ s, decNewerRefExt words (c ++ s) = .ok (v, s) := by
  unfold decNewerRefExt at h
  split at h
  · rename_i node r hnode
    obtain ⟨c1, hb, hrep⟩ := decodeNodeAtom_stab _ _ _ hnode
    split at h
    · rename_i c1' c2' c3' c4' r2
      split at h
      · rename_i idb r3 htake
        obtain ⟨hb2, hlen⟩ := takeBytes_stab _ _ _ _ htake
        simp only [Except.ok.injEq, Prod.mk.injEq] at h
        obtain ⟨h1, h2⟩ := h
        subst h1; subst h2
        refine ⟨c1 ++ c1' :: c2' :: c3' :: c4' :: idb, by simp [hb, hb2], fun s => ?_⟩
        unfold decNewerRefExt
        rw [List.append_assoc]
        simp only [List.cons_append, hrep]
        simp only [takeBytes_exact_of _ idb s hlen]
      · exact absurd h (by simp)
    · exact absurd h (by simp)
  · exact absurd h (by simp)


theorem decTupleExt_stab (many many2 : Nat → List Nat → DecResN)
    (hmany : ∀ n bs vs t, many n bs = .ok (vs, t) →
      ∃ c, bs = c ++ t ∧ ∀ s, many2 n (c ++ s) = .ok (vs, s)) 
    (count : Nat) (bs : List Nat) (v : Term) (t : List Nat)
    (h : decTupleExt many count bs = .ok (v, t)) :
    ∃ c, bs = c ++ t ∧ ∀ s, decTupleExt many2 count (c ++ s) = .ok (v, s) := by
  unfold decTupleExt at h
  split at h
  · rename_i elems r hm
    obtain ⟨c1, hb, hrep⟩ := hmany _ _ _ _ hm
    simp only [Except.ok.injEq, Prod.mk.injEq] at h
    obtain ⟨h1, h2⟩ := h
    subst h1; subst h2
    refine ⟨c1, hb, fun s => ?_⟩
    unfold decTupleExt
    simp only [hrep]
  · exact absurd h (by simp)

theorem decMapExt_stab (many many2 : Nat → List Nat → DecResN)
    (hmany : ∀ n bs vs t, many n bs = .ok (vs, t) →
      ∃ c, bs = c ++ t ∧ ∀ s, many2 n (c ++ s) = .ok (vs, s)) 
    (count : Nat) (bs : List Nat) (v : Term) (t : List Nat)
    (h : decMapExt many count bs = .ok (v, t)) :
    ∃ c, bs = c ++ t ∧ ∀ s, decMapExt many2 count (c ++ s) = .ok (v, s) := by
  unfold decMapExt at h
  split at h
  · rename_i kvs r hm
    obtain ⟨c1, hb, hrep⟩ := hmany _ _ _ _ hm
    simp only [Except.ok.injEq, Prod.mk.injEq] at h
    obtain ⟨h1, h2⟩ := h
    subst h1; subst h2
    refine ⟨c1, hb, fun s => ?_⟩
    unfold decMapExt
    simp only [hrep]
  · exact absurd h (by simp)

theorem decListExt_stab (one one2 : List Nat → DecRes) (many many2 : Nat → List Nat → DecResN)
    (hone : ∀ bs v t, one bs = .ok (v, t) →
      ∃ c, bs = c ++ t ∧ ∀ s, one2 (c ++ s) = .ok (v, s)) (hmany : ∀ n bs vs t, many n bs = .ok (vs, t) →
      ∃ c, bs = c ++ t ∧ ∀ s, many2 n (c ++ s) = .ok (vs, s)) 
    (count : Nat) (bs : List Nat) (v : Term) (t : List Nat)
    (h : decListExt one many count bs = .ok (v, t)) :
    ∃ c, bs = c ++ t ∧ ∀ s, decListExt one2 many2 count (c ++ s) = .ok (v, s) := by
  unfold decListExt at h
  split at h
  · rename_i elems r hm
    obtain ⟨c1, hb, hrep⟩ := hmany _ _ _ _ hm
    split at h
    · rename_i tl r2 htl
      obtain ⟨c2, hb2, hrep2⟩ := hone _ _ _ htl
      simp only [Except.ok.injEq, Prod.mk.injEq] at h
      obtain ⟨h1, h2⟩ := h
      subst h1; subst h2
      refine ⟨c1 ++ c2, by simp [hb, hb2], fun s => ?_⟩
      unfold decListExt
      rw [List.append_assoc]
      simp only [hrep, hrep2]
    · exact absurd h (by simp)
  · exact absurd h (by simp)

theorem decExportExt_stab (one one2 : List Nat → DecRes)
    (hone : ∀ bs v t, one bs = .ok (v, t) →
      ∃ c, bs = c ++ t ∧ ∀ s, one2 (c ++ s) = .ok (v, s)) 
    (bs : List Nat) (v : Term) (t : List Nat)
    (h : decExportExt one bs = .ok (v, t)) :
    ∃ c, bs = c ++ t ∧ ∀ s, decExportExt one2 (c ++ s) = .ok (v, s) := by
  unfold decExportExt at h
  split at h
  · rename_i m r hm
    obtain ⟨c1, hb, hrep⟩ := decodeNodeAtom_stab _ _ _ hm
    split at h
    · rename_i fn r2 hfn
      obtain ⟨c2, hb2, hrep2⟩ := decodeNodeAtom_stab _ _ _ hfn
      split at h
      · rename_i ar r3 har
        obtain ⟨c3, hb3, hrep3⟩ := hone _ _ _ har
        split at h
        · rename_i harx
          simp only [Except.ok.injEq, Prod.mk.injEq] at h
          obtain ⟨h1, h2⟩ := h
          subst h1; subst h2
          refine ⟨c1 ++ (c2 ++ c3), by simp [hb, hb2, hb3], fun s => ?_⟩
          unfold decExportExt
          simp only [List.append_assoc, hrep, hrep2, hrep3]
          rw [if_pos harx]
        · exact absurd h (by simp)
      · rename_i a ha har
        exact absurd h (by simp)
      · exact absurd h (by simp)
    · exact absurd h (by simp)
  · exact absurd h (by simp)

theorem decNewFunExt_stab (one one2 : List Nat → DecRes) (many many2 : Nat → List Nat → DecResN)
    (hone : ∀ bs v t, one bs = .ok (v, t) →
      ∃ c, bs = c ++ t ∧ ∀ s, one2 (c ++ s) = .ok (v, s)) (hmany : ∀ n bs vs t, many n bs = .ok (vs, t) →
      ∃ c, bs = c ++ t ∧ ∀ s, many2 n (c ++ s) = .ok (vs, s)) 
    (ar : Nat) (bs : List Nat) (v : Term) (t : List Nat)
    (h : decNewFunExt one many ar bs = .ok (v, t)) :
    ∃ c, bs = c ++ t ∧ ∀ s, decNewFunExt one2 many2 ar (c ++ s) = .ok (v, s) := by
  unfold decNewFunExt at h
  split at h
  · rename_i uq r3 htake
    obtain ⟨hb0, hlen0⟩ := takeBytes_stab _ _ _ _ htake
    split at h
    · rename_i x1 x2 x3 x4 g1 g2 g3 g4 r4
      split at h
      · rename_i m r5 hm
        obtain ⟨c1, hb1, hrep1⟩ := decodeNodeAtom_stab _ _ _ hm
        split at h
        · rename_i oi r6 hoi
          obtain ⟨c2, hb2, hrep2⟩ := hone _ _ _ hoi
          split at h
          · rename_i ou r7 hou
            obtain ⟨c3, hb3, hrep3⟩ := hone _ _ _ hou
            split at h
            · rename_i pn pi ps pc r8 hp
              obtain ⟨c4, hb4, hrep4⟩ := hone _ _ _ hp
              split at h
              · rename_i free r9 hfree
                obtain ⟨c5, hb5, hrep5⟩ := hmany _ _ _ _ hfree
                simp only [Except.ok.injEq, Prod.mk.injEq] at h
                obtain ⟨h1, h2⟩ := h
                subst h1; subst h2
                refine ⟨uq ++ (x1 :: x2 :: x3 :: x4 :: g1 :: g2 :: g3 :: g4 ::
                  (c1 ++ (c2 ++ (c3 ++ (c4 ++ c5))))),
                  by simp [hb0, hb1, hb2, hb3, hb4, hb5], fun s => ?_⟩
                unfold decNewFunExt
                simp only [takeBytes_exact_of 16 uq _ hlen0, List.cons_append,
                  List.append_assoc, hrep1, hrep2, hrep3, hrep4, hrep5]
              · exact absurd h (by simp)
            · rename_i hx
              exact absurd h (by simp)
            · exact absurd h (by simp)
          · rename_i hx
            exact absurd h (by simp)
          · exact absurd h (by simp)
        · rename_i hx
          exact absurd h (by simp)
        · exact absurd h (by simp)
      · exact absurd h (by simp)
    · exact absurd h (by simp)
  · exact absurd h (by simp)

theorem withLen1_stab (body body2 : Nat → List Nat → DecRes)
    (hbody : ∀ n bs v t, body n bs = .ok (v, t) →
      ∃ c, bs = c ++ t ∧ ∀ s, body2 n (c ++ s) = .ok (v, s))
    (bs : List Nat) (v : Term) (t : List Nat) (h : withLen1 body bs = .ok (v, t)) :
    ∃ c, bs = c ++ t ∧ ∀ s, withLen1 body2 (c ++ s) = .ok (v, s) := by
  unfold withLen1 at h
  split at h
  · rename_i l r
    obtain ⟨c1, hb, hrep⟩ := hbody _ _ _ _ h
    exact ⟨l :: c1, by simp [hb], fun s => hrep s⟩
  · exact absurd h (by simp)

theorem withLen2_stab (body body2 : Nat → List Nat → DecRes)
    (hbody : ∀ n bs v t, body n bs = .ok (v, t) →
      ∃ c, bs = c ++ t ∧ ∀ s, body2 n (c ++ s) = .ok (v, s))
    (bs : List Nat) (v : Term) (t : List Nat) (h : withLen2 body bs = .ok (v, t)) :
    ∃ c, bs = c ++ t ∧ ∀ s, withLen2 body2 (c ++ s) = .ok (v, s) := by
  unfold withLen2 at h
  split at h
  · rename_i l1 l2 r
    obtain ⟨c1, hb, hrep⟩ := hbody _ _ _ _ h
    exact ⟨l1 :: l2 :: c1, by simp [hb], fun s => hrep s⟩
  · exact absurd h (by simp)

theorem withLen4_stab (body body2 : Nat → List Nat → DecRes)
    (hbody : ∀ n bs v t, body n bs = .ok (v, t) →
      ∃ c, bs = c ++ t ∧ ∀ s, body2 n (c ++ s) = .ok (v, s))
    (bs : List Nat) (v : Term) (t : List Nat) (h : withLen4 body bs = .ok (v, t)) :
    ∃ c, bs = c ++ t ∧ ∀ s, withLen4 body2 (c ++ s) = .ok (v, s) := by
  unfold withLen4 at h
  split at h
  · rename_i a b c0 d r
    obtain ⟨c1, hb, hrep⟩ := hbody _ _ _ _ h
    exact ⟨a :: b :: c0 :: d :: c1, by simp [hb], fun s => hrep s⟩
  · exact absurd h (by simp)

theorem decSmallBigExt_stab (bs : List Nat) (v : Term) (t : List Nat)
    (h : decSmallBigExt bs = .ok (v, t)) :
    ∃ c, bs = c ++ t ∧ ∀ s, decSmallBigExt (c ++ s) = .ok (v, s) := by
  unfold decSmallBigExt at h
  split at h
  · rename_i len sign r
    obtain ⟨c1, hb, hrep⟩ := decBigExt_stab _ _ _ _ _ h
    exact ⟨len :: sign :: c1, by simp [hb], fun s => hrep s⟩
  · exact absurd h (by simp)

theorem decLargeBigExt_stab (bs : List Nat) (v : Term) (t : List Nat)
    (h : decLargeBigExt bs = .ok (v, t)) :
    ∃ c, bs = c ++ t ∧ ∀ s, decLargeBigExt (c ++ s) = .ok (v, s) := by
  unfold decLargeBigExt at h
  split at h
  · rename_i a b c0 d sign r
    obtain ⟨c1, hb, hrep⟩ := decBigExt_stab _ _ _ _ _ h
    exact ⟨a :: b :: c0 :: d :: sign :: c1, by simp [hb], fun s => hrep s⟩
  · exact absurd h (by simp)

theorem decBitBinaryHeader_stab (bs : List Nat) (v : Term) (t : List Nat)
    (h : decBitBinaryHeader bs = .ok (v, t)) :
    ∃ c, bs = c ++ t ∧ ∀ s, decBitBinaryHeader (c ++ s) = .ok (v, s) := by
  unfold decBitBinaryHeader at h
  split at h
  · rename_i a b c0 d tb r
    obtain ⟨c1, hb, hrep⟩ := decBitBinaryExt_stab _ _ _ _ _ h
    exact ⟨a :: b :: c0 :: d :: tb :: c1, by simp [hb], fun s => hrep s⟩
  · exact absurd h (by simp)

theorem decNewFunHeader_stab (one one2 : List Nat → DecRes) (many many2 : Nat → List Nat → DecResN)
    (hone : ∀ bs v t, one bs = .ok (v, t) →
      ∃ c, bs = c ++ t ∧ ∀ s, one2 (c ++ s) = .ok (v, s)) (hmany : ∀ n bs vs t, many n bs = .ok (vs, t) →
      ∃ c, bs = c ++ t ∧ ∀ s, many2 n (c ++ s) = .ok (vs, s)) 
    (bs : List Nat) (v : Term) (t : List Nat)
    (h : decNewFunHeader one many bs = .ok (v, t)) :
    ∃ c, bs = c ++ t ∧ ∀ s, decNewFunHeader one2 many2 (c ++ s) = .ok (v, s) := by
  unfold decNewFunHeader at h
  split at h
  · rename_i s1 s2 s3 s4 ar r
    obtain ⟨c1, hb, hrep⟩ := decNewFunExt_stab one one2 many many2 hone hmany _ _ _ _ h
    exact ⟨s1 :: s2 :: s3 :: s4 :: ar :: c1, by simp [hb], fun s => hrep s⟩
  · exact absurd h (by simp)


/-- The single-term dispatcher is suffix-stable: whenever it succeeds, the
bytes it consumed are a prefix that decodes identically before any suffix,
provided the term and run continuations are themselves suffix-stable. -/

theorem decodeTag_stab (one one2 : List Nat → DecRes) (many many2 : Nat → List Nat → DecResN)
    (hone : ∀ bs v t, one bs = .ok (v, t) →
      ∃ c, bs = c ++ t ∧ ∀ s, one2 (c ++ s) = .ok (v, s))
    (hmany : ∀ n bs vs t, many n bs = .ok (vs, t) →
      ∃ c, bs = c ++ t ∧ ∀ s, many2 n (c ++ s) = .ok (vs, s))
    (o : Options) (t0 : Nat) (bs : List Nat) (v : Term) (t : List Nat)
    (h : decodeTag one many o t0 bs = .ok (v, t)) :
    ∃ c, bs = c ++ t ∧ ∀ s, decodeTag one2 many2 o t0 (c ++ s) = .ok (v, s) := by
  unfold decodeTag at h
  split at h
  · obtain ⟨c, hb, hrep⟩ := decSmallIntExt_stab _ _ _ h
    exact ⟨c, hb, fun s => by simp only [decodeTag]; exact hrep s⟩
  · obtain ⟨c, hb, hrep⟩ := decIntExt_stab _ _ _ h
    exact ⟨c, hb, fun s => by simp only [decodeTag]; exact hrep s⟩
  · obtain ⟨c, hb, hrep⟩ := decSmallBigExt_stab _ _ _ h
    exact ⟨c, hb, fun s => by simp only [decodeTag]; exact hrep s⟩
  · obtain ⟨c, hb, hrep⟩ := decLargeBigExt_stab _ _ _ h
    exact ⟨c, hb, fun s => by simp only [decodeTag]; exact hrep s⟩
  · obtain ⟨c, hb, hrep⟩ := decFloatExt_stab _ _ _ h
    exact ⟨c, hb, fun s => by simp only [decodeTag]; exact hrep s⟩
  · obtain ⟨c, hb, hrep⟩ := withLen2_stab _ _ (fun n => decAtomExt_stab o false n) _ _ _ h
    exact ⟨c, hb, fun s => by simp only [decodeTag]; exact hrep s⟩
  · obtain ⟨c, hb, hrep⟩ := withLen1_stab _ _ (fun n => decAtomExt_stab o false n) _ _ _ h
    exact ⟨c, hb, fun s => by simp only [decodeTag]; exact hrep s⟩
  · obtain ⟨c, hb, hrep⟩ := withLen2_stab _ _ (fun n => decAtomExt_stab o true n) _ _ _ h
    exact ⟨c, hb, fun s => by simp only [decodeTag]; exact hrep s⟩
  · obtain ⟨c, hb, hrep⟩ := withLen1_stab _ _ (fun n => decAtomExt_stab o true n) _ _ _ h
    exact ⟨c, hb, fun s => by simp only [decodeTag]; exact hrep s⟩
  · obtain ⟨c, hb, hrep⟩ := withLen2_stab _ _ (fun n => decStringExt_stab o n) _ _ _ h
    exact ⟨c, hb, fun s => by simp only [decodeTag]; exact hrep s⟩
  · simp only [Except.ok.injEq, Prod.mk.injEq] at h
    obtain ⟨h1, h2⟩ := h
    subst h1; subst h2
    exact ⟨[], rfl, fun s => by simp only [decodeTag, List.nil_append]⟩
  · obtain ⟨c, hb, hrep⟩ :=
      withLen4_stab _ _ (fun n => decListExt_stab one one2 many many2 hone hmany n) _ _ _ h
    exact ⟨c, hb, fun s => by simp only [decodeTag]; exact hrep s⟩
  · obtain ⟨c, hb, hrep⟩ :=
      withLen1_stab _ _ (fun n => decTupleExt_stab many many2 hmany n) _ _ _ h
    exact ⟨c, hb, fun s => by simp only [decodeTag]; exact hrep s⟩
  · obtain ⟨c, hb, hrep⟩ :=
      withLen4_stab _ _ (fun n => decTupleExt_stab many many2 hmany n) _ _ _ h
    exact ⟨c, hb, fun s => by simp only [decodeTag]; exact hrep s⟩
  · obtain ⟨c, hb, hrep⟩ :=
      withLen4_stab _ _ (fun n => decMapExt_stab many many2 hmany n) _ _ _ h
    exact ⟨c, hb, fun s => by simp only [decodeTag]; exact hrep s⟩
  · obtain ⟨c, hb, hrep⟩ := withLen4_stab _ _ (fun n => decBinaryExt_stab n) _ _ _ h
    exact ⟨c, hb, fun s => by simp only [decodeTag]; exact hrep s⟩
  · obtain ⟨c, hb, hrep⟩ := decBitBinaryHeader_stab _ _ _ h
    exact ⟨c, hb, fun s => by simp only [decodeTag]; exact hrep s⟩
  · obtain ⟨c, hb, hrep⟩ := decPidExt_stab _ _ _ h
    exact ⟨c, hb, fun s => by simp only [decodeTag]; exact hrep s⟩
  · obtain ⟨c, hb, hrep⟩ := decNewPidExt_stab _ _ _ h
    exact ⟨c, hb, fun s => by simp only [decodeTag]; exact hrep s⟩
  · obtain ⟨c, hb, hrep⟩ := withLen2_stab _ _ (fun n => decNewRefExt_stab n) _ _ _ h
    exact ⟨c, hb, fun s => by simp only [decodeTag]; exact hrep s⟩
  · obtain ⟨c, hb, hrep⟩ := withLen2_stab _ _ (fun n => decNewerRefExt_stab n) _ _ _ h
    exact ⟨c, hb, fun s => by simp only [decodeTag]; exact hrep s⟩
  · obtain ⟨c, hb, hrep⟩ := decNewFunHeader_stab one one2 many many2 hone hmany _ _ _ h
    exact ⟨c, hb, fun s => by simp only [decodeTag]; exact hrep s⟩
  · obtain ⟨c, hb, hrep⟩ := decExportExt_stab one one2 hone _ _ _ h
    exact ⟨c, hb, fun s => by simp only [decodeTag]; exact hrep s⟩
  · exact absurd h (by simp)

set_option maxHeartbeats 2000000 in
/-- Suffix stability of the fuel-indexed decoders: a successful parse pins
down the consumed prefix, and re-running with at least as much fuel on that
prefix followed by ANY suffix returns the same value with that suffix as
the tail. -/
theorem decode_stab_mut (f : Nat) : ∀ f2, f ≤ f2 →
    ((∀ o bs v t, decodeOneF f o bs = .ok (v, t) →
        ∃ c, bs = c ++ t ∧ ∀ s, decodeOneF f2 o (c ++ s) = .ok (v, s)) ∧
     (∀ o n bs vs t, decodeN f o n bs = .ok (vs, t) →
        ∃ c, bs = c ++ t ∧ ∀ s, decodeN f2 o n (c ++ s) = .ok (vs, s))) := by
  induction f with
  | zero =>
    intro f2 _
    refine ⟨fun o bs v t h => absurd h (by simp [decodeOneF]), fun o n bs vs t h => ?_⟩
    cases n with
    | zero =>
      rw [decodeN_zero] at h
      simp only [Except.ok.injEq, Prod.mk.injEq] at h
      obtain ⟨h1, h2⟩ := h
      subst h1; subst h2
      exact ⟨[], rfl, fun s => by rw [List.nil_append, decodeN_zero]⟩
    | succ n => exact absurd h (by simp [decodeN])
  | succ f ih =>
    intro f2 hf2
    cases f2 with
    | zero => omega
    | succ f2 =>
      have ihf := ih f2 (by omega)
      constructor
      · intro o bs v t h
        cases bs with
        | nil => exact absurd h (by simp [decodeOneF])
        | cons t0 rest =>
          rw [decodeOneF_cons] at h
          obtain ⟨c, hb, hrep⟩ :=
            decodeTag_stab (decodeOneF f o) (decodeOneF f2 o) (decodeN f o) (decodeN f2 o)
              (fun bs v t h => ihf.1 o bs v t h)
              (fun n bs vs t h => ihf.2 o n bs vs t h)
              o t0 rest v t h
          refine ⟨t0 :: c, by rw [hb, List.cons_append], fun s => ?_⟩
          rw [List.cons_append, decodeOneF_cons]
          exact hrep s
      · intro o n bs vs t h
        cases n with
        | zero =>
          rw [decodeN_zero] at h
          simp only [Except.ok.injEq, Prod.mk.injEq] at h
          obtain ⟨h1, h2⟩ := h
          subst h1; subst h2
          exact ⟨[], rfl, fun s => by rw [List.nil_append, decodeN_zero]⟩
        | succ n =>
          simp only [decodeN] at h
          split at h
          · rename_i v0 r hv0
            split at h
            · rename_i vs0 t0 hvs0
              simp only [Except.ok.injEq, Prod.mk.injEq] at h
              obtain ⟨h1, h2⟩ := h
              subst h1; subst h2
              obtain ⟨c1, hb1, hrep1⟩ := ihf.1 o bs v0 r hv0
              obtain ⟨c2, hb2, hrep2⟩ := ihf.2 o n r vs0 t0 hvs0
              refine ⟨c1 ++ c2, by rw [hb1, hb2, List.append_assoc], fun s => ?_⟩
              have e1 : decodeOneF f2 o ((c1 ++ c2) ++ s) = .ok (v0, c2 ++ s) := by
                rw [List.append_assoc]; exact hrep1 (c2 ++ s)
              have e2 : decodeN f2 o n (c2 ++ s) = .ok (vs0, s) := hrep2 s
              exact decodeN_succ f2 n o ((c1 ++ c2) ++ s) (c2 ++ s) s v0 vs0 e1 e2
            · exact absurd h (by simp)
          · exact absurd h (by simp)

/-- C8: COUNTEREXAMPLE. A legal compressed encoding does not keep an appended
suffix as unconsumed tail: the whole remainder after the length header is fed
to the decompressor, so the suffix corrupts the zlib stream and decoding
fails instead of returning the suffix. -/
theorem C8_tail_lost_on_compressed :
    binary_to_term_impl inflate0 defaultOptions [131, 80, 0, 0, 0, 2, 42] =
      .ok (.integer 7, []) ∧
    binary_to_term_impl inflate0 defaultOptions ([131, 80, 0, 0, 0, 2, 42] ++ [9]) =
      .error "Codec: invalid compressed data" := by
  exact ⟨rfl, rfl⟩

/-- C8 (amended): for every legal UNCOMPRESSED ETF encoding E and every byte
suffix S, decoding E followed by S returns the value encoded by E together
with S itself, byte for byte, as the unconsumed tail. -/
theorem C8_tail_preserved_uncompressed (inflate : List Nat → Option (List Nat))
    (E S : List Nat) (v : Term)
    (hE : binary_to_term_impl inflate defaultOptions E = .ok (v, []))
    (hnc : isCompressedEnvelope E = false) :
    binary_to_term_impl inflate defaultOptions (E ++ S) = .ok (v, S) := by
  unfold binary_to_term_impl at hE
  split at hE
  · rename_i a b c d deflated
    exact absurd hnc (by simp [isCompressedEnvelope])
  · rename_i rest hne1
    rename_i heq
    -- E = 131 :: rest
    cases rest with
    | nil => exact absurd hE (by simp [decodeTop, decodeOneF])
    | cons t0 rest =>
      have ht0 : t0 ≠ 80 := by
        intro h80
        subst h80
        rw [decodeTop, decodeOneF_cons] at hE
        exact absurd hE (by simp [decodeTag])
      rw [decodeTop] at hE
      have hle : (t0 :: rest).length + 1 ≤ ((t0 :: rest) ++ S).length + 1 := by
        simp only [List.length_append]; omega
      obtain ⟨c, hb, hrep⟩ :=
        (decode_stab_mut ((t0 :: rest).length + 1) (((t0 :: rest) ++ S).length + 1) hle).1
          defaultOptions (t0 :: rest) v [] hE
      rw [List.append_nil] at hb
      subst hb
      have hgoal := hrep S
      simp only [List.cons_append]
      rw [binary_to_term_impl_uncompressed inflate defaultOptions t0 (rest ++ S) ht0,
        decodeTop]
      simp only [List.cons_append, List.length_cons, List.length_append] at hgoal ⊢
      exact hgoal
  · exact absurd hE (by simp)

/-- C8 witness: the amended theorem applied at the encoding of the integer 5
with suffix [9]. -/
theorem C8_tail_preserved_witness :
    binary_to_term_impl noInflate defaultOptions [131, 97, 5] = .ok (.integer 5, []) ∧
    isCompressedEnvelope [131, 97, 5] = false ∧
    binary_to_term_impl noInflate defaultOptions ([131, 97, 5] ++ [9]) =
      .ok (.integer 5, [9]) :=
  ⟨rfl, rfl, C8_tail_preserved_uncompressed noInflate [131, 97, 5] [9] (.integer 5) rfl rfl⟩


/-- C1: COUNTEREXAMPLE.  The host string of the single codepoint 229 is in
the canonical encoder's image, yet decoding its encoding under default
options returns the two-codepoint string [195, 165] (the UTF-8 bytes read
back one byte per character), not the original value. -/
theorem C1_roundtrip_fails_nonascii :
    binary_to_term (term_to_binary (.str [229])) = .ok (.str [195, 165], []) ∧
    (Term.str [195, 165] = Term.str [229] → False) :=
  ⟨rfl, by simp⟩

/-- C1 (amended): for every CANONICAL value v (no strict atoms, no special
atom names, ASCII-only text strings, no 8-bit-tail bitstrings, no nil-tailed
improper lists), decoding the bytes produced by encoding v under default
options returns exactly (v, empty tail). -/
theorem C1_roundtrip_canonical (v : Term) (hc : canonTerm v = true) :
    binary_to_term (term_to_binary v) = .ok (v, []) :=
  binary_to_term_impl_encode noInflate v hc

/-- C1 witness: the amended round trip applied at the tuple (1, ok). -/
theorem C1_roundtrip_canonical_witness :
    canonTerm (Term.tuple [.integer 1, .atom [111, 107]]) = true ∧
    binary_to_term (term_to_binary (.tuple [.integer 1, .atom [111, 107]])) =
      .ok (.tuple [.integer 1, .atom [111, 107]], []) :=
  ⟨rfl, C1_roundtrip_canonical _ rfl⟩

/-- C5.  The encoder chooses the integer wire tag exactly by magnitude:
SMALL_INT (97) iff 0 <= v <= 255; otherwise INT (98) iff v fits a signed
32-bit range; otherwise SMALL_BIG (110) iff the magnitude fits in at most
255 little-endian bytes; otherwise LARGE_BIG (111).  In particular encoding
2^64 yields [131, 110, 9, 0, then the nine magnitude bytes 0 x 8 and 1]. -/
theorem C5_integer_tag_selection (v : Int) :
    ((encInteger v).head? = some 97 ↔ 0 ≤ v ∧ v ≤ 255) ∧
    ((encInteger v).head? = some 98 ↔
      ¬(0 ≤ v ∧ v ≤ 255) ∧ (-2147483648 ≤ v ∧ v ≤ 2147483647)) ∧
    ((encInteger v).head? = some 110 ↔
      ¬(0 ≤ v ∧ v ≤ 255) ∧ ¬(-2147483648 ≤ v ∧ v ≤ 2147483647) ∧
      (natBytesLE v.natAbs).length ≤ 255) ∧
    ((encInteger v).head? = some 111 ↔
      ¬(0 ≤ v ∧ v ≤ 255) ∧ ¬(-2147483648 ≤ v ∧ v ≤ 2147483647) ∧
      ¬(natBytesLE v.natAbs).length ≤ 255) ∧
    term_to_binary (.integer (2 ^ 64)) =
      [131, 110, 9, 0, 0, 0, 0, 0, 0, 0, 0, 0, 1] := by
  refine ⟨?_, ?_, ?_, ?_, by decide⟩ <;>
    · unfold encInteger
      by_cases h1 : 0 ≤ v ∧ v ≤ 255
      · simp [h1]
      · by_cases h2 : -2147483648 ≤ v ∧ v ≤ 2147483647
        · simp [h1, h2]
        · by_cases h3 : (natBytesLE v.natAbs).length ≤ 255
          · simp [h1, h2, h3]
          · simp [h1, h2, h3]

/-- C6.  A host text string whose codepoints all fit in a byte and whose
UTF-8 form is at most 65535 bytes long is emitted as STRING_EXT (107) with a
2-byte length and the UTF-8 bytes; a string with a codepoint above 255 is
emitted as LIST_EXT (108) of INT-tagged codepoints closed by NIL_EXT (106).
Concretely, hello is 131,107,0,5 plus its five bytes, and the two-codepoint
string Delta-Omega is a LIST_EXT of two INT codepoints and NIL_EXT. -/
theorem C6_string_policy (s : List Nat) :
    ((∀ c ∈ s, c ≤ 255) → (utf8 s).length ≤ 65535 →
      encodeTerm (.str s) = 107 :: u16 (utf8 s).length ++ utf8 s) ∧
    ((∃ c ∈ s, 255 < c) →
      encodeTerm (.str s) = 108 :: u32 s.length ++ intCodepoints s ++ [106]) ∧
    term_to_binary (.str [104, 101, 108, 108, 111]) =
      [131, 107, 0, 5, 104, 101, 108, 108, 111] ∧
    term_to_binary (.str [916, 937]) =
      [131, 108, 0, 0, 0, 2, 98, 0, 0, 3, 148, 98, 0, 0, 3, 169, 106] := by
  refine ⟨fun ha hb => ?_, fun hex => ?_, rfl, rfl⟩
  · simp only [encodeTerm]
    rw [if_pos ⟨ha, hb⟩]
  · simp only [encodeTerm]
    rw [if_neg]
    intro ⟨hall, _⟩
    obtain ⟨c, hc, hgt⟩ := hex
    exact absurd (hall c hc) (by omega)

/-- C6 witness: the two conditional clauses applied at the ASCII string hi
and at the single wide codepoint 916. -/
theorem C6_string_policy_witness :
    ((∀ c ∈ [104, 105], c ≤ 255) ∧ (utf8 [104, 105]).length ≤ 65535 ∧
      encodeTerm (.str [104, 105]) = 107 :: u16 (utf8 [104, 105]).length ++ utf8 [104, 105]) ∧
    ((∃ c ∈ [916], 255 < c) ∧
      encodeTerm (.str [916]) = 108 :: u32 ([916] : List Nat).length ++ intCodepoints [916] ++ [106]) :=
  ⟨⟨by decide, by decide, (C6_string_policy [104, 105]).1 (by decide) (by decide)⟩,
   ⟨by decide, (C6_string_policy [916]).2.1 (by decide)⟩⟩

/-- C7.  Decoding an atom named true, false or undefined returns the host
boolean true, boolean false, or the null sentinel respectively, under every
one of the four atom wire tags (100, 115, 118, 119) and every value of the
atom representation option, never an Atom/string/bytes value. -/
theorem C7_special_atom_coercion (o : Options) :
    (binary_to_term_impl noInflate o [131, 100, 0, 4, 116, 114, 117, 101] = .ok (.boolean true, []) ∧
     binary_to_term_impl noInflate o [131, 115, 4, 116, 114, 117, 101] = .ok (.boolean true, []) ∧
     binary_to_term_impl noInflate o [131, 118, 0, 4, 116, 114, 117, 101] = .ok (.boolean true, []) ∧
     binary_to_term_impl noInflate o [131, 119, 4, 116, 114, 117, 101] = .ok (.boolean true, [])) ∧
    (binary_to_term_impl noInflate o [131, 100, 0, 5, 102, 97, 108, 115, 101] = .ok (.boolean false, []) ∧
     binary_to_term_impl noInflate o [131, 115, 5, 102, 97, 108, 115, 101] = .ok (.boolean false, []) ∧
     binary_to_term_impl noInflate o [131, 118, 0, 5, 102, 97, 108, 115, 101] = .ok (.boolean false, []) ∧
     binary_to_term_impl noInflate o [131, 119, 5, 102, 97, 108, 115, 101] = .ok (.boolean false, [])) ∧
    (binary_to_term_impl noInflate o [131, 100, 0, 9, 117, 110, 100, 101, 102, 105, 110, 101, 100] = .ok (.undefined, []) ∧
     binary_to_term_impl noInflate o [131, 115, 9, 117, 110, 100, 101, 102, 105, 110, 101, 100] = .ok (.undefined, []) ∧
     binary_to_term_impl noInflate o [131, 118, 0, 9, 117, 110, 100, 101, 102, 105, 110, 101, 100] = .ok (.undefined, []) ∧
     binary_to_term_impl noInflate o [131, 119, 9, 117, 110, 100, 101, 102, 105, 110, 101, 100] = .ok (.undefined, [])) := by
  obtain ⟨p, q⟩ := o
  cases p <;> cases q <;>
    exact ⟨⟨rfl, rfl, rfl, rfl⟩, ⟨rfl, rfl, rfl, rfl⟩, ⟨rfl, rfl, rfl, rfl⟩⟩

/-- C9.  Decoding the compressed envelope (131, tag 80, 4-byte big-endian
uncompressed length, deflated payload) inflates the remaining bytes, checks
the inflated byte count against the header and then parses the inflated
payload directly, without requiring another 131 prefix; on a length match
the result equals decoding the uncompressed form 131 followed by the
payload, and on a mismatch it is the size-mismatch error. -/
theorem C9_compressed_envelope (inflate : List Nat → Option (List Nat)) (o : Options)
    (a b c d : Nat) (deflated P : List Nat)
    (hinf : inflate deflated = some P) :
    (P.length = ((a * 256 + b) * 256 + c) * 256 + d →
      binary_to_term_impl inflate o (131 :: 80 :: a :: b :: c :: d :: deflated) =
        decodeTop o P ∧
      (∀ t r, P = t :: r → t ≠ 80 →
        binary_to_term_impl inflate o (131 :: 80 :: a :: b :: c :: d :: deflated) =
          binary_to_term_impl inflate o (131 :: P))) ∧
    (P.length ≠ ((a * 256 + b) * 256 + c) * 256 + d →
      binary_to_term_impl inflate o (131 :: 80 :: a :: b :: c :: d :: deflated) =
        .error "Codec: compressed data size mismatch") := by
  have hred : binary_to_term_impl inflate o (131 :: 80 :: a :: b :: c :: d :: deflated) =
      (if P.length = ((a * 256 + b) * 256 + c) * 256 + d then decodeTop o P
       else .error "Codec: compressed data size mismatch") := by
    simp only [binary_to_term_impl, hinf]
  constructor
  · intro hlen
    rw [hred, if_pos hlen]
    refine ⟨rfl, fun t r hP ht => ?_⟩
    rw [hP, binary_to_term_impl_uncompressed inflate o t r ht, ← hP]
  · intro hlen
    rw [hred, if_neg hlen]

/-- C9 witness: the envelope facts applied at the concrete deflated stream
[42] inflating to the SMALL_INT encoding of 7. -/
theorem C9_compressed_envelope_witness :
    inflate0 [42] = some [97, 7] ∧
    ([97, 7] : List Nat).length = ((0 * 256 + 0) * 256 + 0) * 256 + 2 ∧
    binary_to_term_impl inflate0 defaultOptions [131, 80, 0, 0, 0, 2, 42] =
      decodeTop defaultOptions [97, 7] ∧
    binary_to_term_impl inflate0 defaultOptions [131, 80, 0, 0, 0, 2, 42] =
      binary_to_term_impl inflate0 defaultOptions [131, 97, 7] := by
  have hinf : inflate0 [42] = some [97, 7] := by decide
  refine ⟨hinf, rfl, ?_, ?_⟩
  · exact ((C9_compressed_envelope inflate0 defaultOptions 0 0 0 2 [42] [97, 7] hinf).1 rfl).1
  · exact ((C9_compressed_envelope inflate0 defaultOptions 0 0 0 2 [42] [97, 7]
      hinf).1 rfl).2 97 [7] rfl (by decide)

end Etf
